import Mathlib

set_option maxHeartbeats 1000000

/-!
Verification of a sentinel-based singly linked list
(`single-linked-list.h`, class `SingleLinkedList<Type>`).

The embedding is pointer-level: nodes live in a `Heap` (an allocator whose
slot `a` holds the node allocated at address `a`, `none` after `delete`),
`head_.next_node` and `size_` are the fields of the container record, and
every public operation is transcribed statement by statement from the C++
source.  Iterators are nullable node pointers.  Undefined behaviour
(dereferencing a dangling or null pointer) makes an operation return `none`.
-/

/-- One list node: `SingleLinkedList<Type>::Node`.  `next_node = none`
models `nullptr`. -/
structure Node (α : Type) where
  value : α
  next_node : Option Nat
deriving Repr, DecidableEq

/-- The allocator state: slot `a` holds the node at address `a`, or `none`
if that address was freed or never allocated. -/
abbrev Heap (α : Type) := List (Option (Node α))

variable {α : Type}

/-- Read the node at address `a` (`none` = dangling pointer). -/
def getNode (h : Heap α) (a : Nat) : Option (Node α) :=
  h.getD a none

/-- Source `new Node(...)`: returns the extended heap and the fresh address. -/
def allocNode (h : Heap α) (n : Node α) : Heap α × Nat :=
  (h ++ [some n], h.length)

/-- Source `delete` the node at address `a`. -/
def freeNode (h : Heap α) (a : Nat) : Heap α :=
  h.set a none

/-- Overwrite the `next_node` field of the node at address `a`
(no-op on a dangling address; reaching that case is UB in the source). -/
def setNextNode (h : Heap α) (a : Nat) (nxt : Option Nat) : Heap α :=
  match getNode h a with
  | some n => h.set a (some { n with next_node := nxt })
  | none => h

/-- The container fields: `head_.next_node` (the sentinel's next link) and
`size_`.  The sentinel node itself is contained by value, so only its next
link is state. -/
structure SingleLinkedList where
  head_next : Option Nat
  size_ : Nat
deriving Repr, DecidableEq

/-- A non-null node pointer: either `&head_` (the sentinel) or the address
of a heap node. -/
inductive Ptr where
  | sentinel : Ptr
  | node : Nat → Ptr
deriving Repr, DecidableEq

/-- Source `BasicIterator`: its only state is the stored `Node* node_`;
`none` models the null pointer (default-constructed iterator, `end()`). -/
abbrev BasicIterator := Option Ptr

/-- Read `p->next_node` (`none` = dereferencing a dangling pointer, UB). -/
def readNext (h : Heap α) (l : SingleLinkedList) (p : Ptr) : Option (Option Nat) :=
  match p with
  | Ptr.sentinel => some l.head_next
  | Ptr.node a => (getNode h a).map Node.next_node

/-- Write `p->next_node = nxt`.  Writing through the sentinel updates the
container record, writing through a node pointer updates the heap. -/
def writeNext (h : Heap α) (l : SingleLinkedList) (p : Ptr) (nxt : Option Nat) :
    Heap α × SingleLinkedList :=
  match p with
  | Ptr.sentinel => (h, { l with head_next := nxt })
  | Ptr.node a => (setNextNode h a nxt, l)

/-- The default constructor: empty list. -/
def emptyList : SingleLinkedList :=
  { head_next := none, size_ := 0 }

/-- Source `begin()`: `Iterator{head_.next_node}`. -/
def begin (l : SingleLinkedList) : BasicIterator :=
  l.head_next.map Ptr.node

/-- Source `end()`: `Iterator{nullptr}`. -/
def endIter : BasicIterator := none

/-- Source `before_begin()`: `Iterator{&head_}`. -/
def before_begin : BasicIterator := some Ptr.sentinel

/-- Source `GetSize()`: returns `size_`. -/
def GetSize (l : SingleLinkedList) : Nat := l.size_

/-- Source `IsEmpty()`: returns `!size_` (named `IsEmptyL` here because `IsEmpty`
is taken by the ambient library). -/
def IsEmptyL (l : SingleLinkedList) : Bool := l.size_ == 0

/-- Source `PushFront(value)`:
`head_.next_node = new Node(value, head_.next_node); ++size_;`. -/
def PushFront (h : Heap α) (l : SingleLinkedList) (value : α) :
    Heap α × SingleLinkedList :=
  let p := allocNode h ⟨value, l.head_next⟩
  (p.1, { head_next := some p.2, size_ := l.size_ + 1 })

/-- Source `InsertAfter(pos, value)`:
`Node* new_node = new Node(value, pos.node_->next_node);
pos.node_->next_node = new_node; ++size_;
return Iterator{pos.node_->next_node};`.
Returns `none` when `pos` dangles (UB in the source). -/
def InsertAfter (h : Heap α) (l : SingleLinkedList) (pos : Ptr) (value : α) :
    Option (Heap α × SingleLinkedList × Ptr) :=
  match readNext h l pos with
  | none => none
  | some nxt =>
    let p := allocNode h ⟨value, nxt⟩
    let q := writeNext p.1 l pos (some p.2)
    some (q.1, { q.2 with size_ := q.2.size_ + 1 }, Ptr.node p.2)

/-- Source `InsertAfter` with an explicit allocation outcome: when `allocOk` is
false, `new Node(value, pos.node_->next_node)` throws, and control leaves
the function before any statement has modified the list, so the state
handed to the exception handler is the entry state. -/
def InsertAfterAlloc (h : Heap α) (l : SingleLinkedList) (pos : Ptr) (value : α)
    (allocOk : Bool) :
    Option ((Heap α × SingleLinkedList) × Except Unit Ptr) :=
  match readNext h l pos with
  | none => none
  | some nxt =>
    if allocOk then
      let p := allocNode h ⟨value, nxt⟩
      let q := writeNext p.1 l pos (some p.2)
      some ((q.1, { q.2 with size_ := q.2.size_ + 1 }), Except.ok (Ptr.node p.2))
    else
      some ((h, l), Except.error ())

/-- Source `PopFront()`:
`Node* tmp = head_.next_node->next_node; delete head_.next_node;
head_.next_node = tmp; --size_;`.
Returns `none` on an empty list (UB in the source). -/
def PopFront (h : Heap α) (l : SingleLinkedList) :
    Option (Heap α × SingleLinkedList) :=
  match l.head_next with
  | none => none
  | some d =>
    match getNode h d with
    | none => none
    | some dn =>
      some (freeNode h d, { head_next := dn.next_node, size_ := l.size_ - 1 })

/-- Source `EraseAfter(pos)`:
`Node* tmp = pos.node_->next_node->next_node; delete pos.node_->next_node;
pos.node_->next_node = tmp; --size_; return Iterator{pos.node_->next_node};`.
Returns `none` when `pos` dangles or has no successor (UB in the source). -/
def EraseAfter (h : Heap α) (l : SingleLinkedList) (pos : Ptr) :
    Option (Heap α × SingleLinkedList × BasicIterator) :=
  match readNext h l pos with
  | none => none
  | some none => none
  | some (some d) =>
    match getNode h d with
    | none => none
    | some dnode =>
      let tmp := dnode.next_node
      let q := writeNext (freeNode h d) l pos tmp
      some (q.1, { q.2 with size_ := q.2.size_ - 1 }, tmp.map Ptr.node)

/-- The loop of `Clear()`:
`while (head_.next_node != nullptr) { Node* new_head = head_.next_node->next_node;
delete head_.next_node; head_.next_node = new_head; }`,
with fuel bounding the iteration count (the fuel used by `Clear` suffices
for every heap-consistent chain). -/
def clearLoop : Nat → Heap α → SingleLinkedList → Heap α × SingleLinkedList
  | 0, h, l => (h, l)
  | fuel + 1, h, l =>
    match l.head_next with
    | none => (h, l)
    | some d =>
      let new_head := (getNode h d).bind Node.next_node
      clearLoop fuel (freeNode h d) { l with head_next := new_head }

/-- Source `Clear()`: runs the deletion loop, then `size_ = 0`. -/
def Clear (h : Heap α) (l : SingleLinkedList) : Heap α × SingleLinkedList :=
  let p := clearLoop (h.length + 1) h l
  (p.1, { p.2 with size_ := 0 })

/-- The loop of `Init(range_begin, range_end)` for a materialised value
range (used by the `initializer_list` constructor): for each value,
`++size_; node->next_node = new Node(*it, nullptr); node = node->next_node;`. -/
def InitLoop : Heap α → SingleLinkedList → Ptr → List α → Heap α × SingleLinkedList
  | h, l, _, [] => (h, l)
  | h, l, node, v :: vs =>
    let l1 := { l with size_ := l.size_ + 1 }
    let p := allocNode h ⟨v, none⟩
    let q := writeNext p.1 l1 node (some p.2)
    InitLoop q.1 q.2 (Ptr.node p.2) vs

/-- Source `Init(range_begin, range_end)` over a value range:
the cursor `node` starts at `&head_`. -/
def Init (h : Heap α) (l : SingleLinkedList) (vs : List α) :
    Heap α × SingleLinkedList :=
  InitLoop h l Ptr.sentinel vs

/-- Source `swap(other)`: `std::swap(head_.next_node, other.head_.next_node);
std::swap(size_, other.size_);`.  Returns the two lists after the exchange. -/
def swapLists (lhs rhs : SingleLinkedList) : SingleLinkedList × SingleLinkedList :=
  ({ head_next := rhs.head_next, size_ := rhs.size_ },
   { head_next := lhs.head_next, size_ := lhs.size_ })

/-- The free function `swap(lhs, rhs)`: calls `lhs.swap(rhs)`. -/
def swapFree (lhs rhs : SingleLinkedList) : SingleLinkedList × SingleLinkedList :=
  swapLists lhs rhs

/-- Source `SingleLinkedList(std::initializer_list<Type> values)`:
`SingleLinkedList tmp; tmp.Init(values.begin(), values.end()); swap(tmp);`
and the (empty) `tmp` is then destroyed, running `Clear()`. -/
def mkFromList (h : Heap α) (values : List α) : Heap α × SingleLinkedList :=
  let p := Init h emptyList values
  let q := swapLists emptyList p.2
  let r := Clear p.1 q.2
  (r.1, q.1)

/-- The loop of `Init(range_begin, range_end)` instantiated with list
iterators over another list living in the same heap (as the copy
constructor does), with an allocation budget: each `new Node(*it, nullptr)`
consumes one unit, and with the budget at zero the allocation throws.  The
returned flag is `true` when the loop completed and `false` when it threw;
in the latter case the returned pair is the state at the throw point
(`++size_` has already run for the failing iteration).  The result is
`none` when the source iterator dangles or the source chain is cyclic (UB
or non-termination in the source). -/
def InitFromChain :
    Heap α → SingleLinkedList → Ptr → Nat → Nat → Option Nat →
    Option ((Heap α × SingleLinkedList) × Bool)
  | h, l, _, _, _, none => some ((h, l), true)
  | _, _, _, 0, _, some _ => none
  | h, l, node, fuel + 1, budget, some a =>
    match getNode h a with
    | none => none
    | some srcNode =>
      let l1 := { l with size_ := l.size_ + 1 }
      match budget with
      | 0 => some ((h, l1), false)
      | budget + 1 =>
        let p := allocNode h ⟨srcNode.value, none⟩
        let q := writeNext p.1 l1 node (some p.2)
        InitFromChain q.1 q.2 (Ptr.node p.2) fuel budget srcNode.next_node

/-- Source `SingleLinkedList(const SingleLinkedList& other)` with an allocation
budget: `SingleLinkedList tmp; tmp.Init(other.begin(), other.end());
swap(tmp);`.  On success the result is the constructed list (the emptied
`tmp` is destroyed by `Clear`, a no-op).  If `Init` throws, the inner
`tmp` is destroyed — `Clear` frees the partially built chain — and the
exception propagates: the result carries no list. -/
def copyCtorB (h : Heap α) (other : SingleLinkedList) (budget : Nat) :
    Option (Heap α × Option SingleLinkedList) :=
  match InitFromChain h emptyList Ptr.sentinel (h.length + 1) budget other.head_next with
  | none => none
  | some ((h1, tmp), true) =>
    let q := swapLists emptyList tmp
    let r := Clear h1 q.2
    some (r.1, some q.1)
  | some ((h1, tmp), false) =>
    let r := Clear h1 tmp
    some (r.1, none)

/-- Source `operator=(const SingleLinkedList& rhs)` with an allocation budget:
`if (this != &rhs) { SingleLinkedList tmp(rhs); swap(tmp); } return *this;`.
`same` models the identity test `this == &rhs`.  The flag reports whether
the assignment completed (`false`: the copy construction threw and `*this`
was never touched; the destroyed `tmp` does not exist in that case). -/
def assignB (h : Heap α) (a b : SingleLinkedList) (same : Bool) (budget : Nat) :
    Option (Heap α × SingleLinkedList × Bool) :=
  if same then some (h, a, true)
  else
    match copyCtorB h b budget with
    | none => none
    | some (h1, none) => some (h1, a, false)
    | some (h1, some tmp) =>
      let q := swapLists a tmp
      let r := Clear h1 q.2
      some (r.1, q.1, true)

/-- Source `operator->()`: `return (node_ != nullptr) ? &node_->value : nullptr;`.
The result is the returned `pointer`: `none` for the null pointer,
`some p` for `&p->value`, the address of the value inside node `p`. -/
def opArrow (it : BasicIterator) : Option Ptr :=
  match it with
  | none => none
  | some p => some p

/-- Dereference a `Type*` obtained from `operator->`: reading `&p->value`
yields the value stored in the node `p` points into (the sentinel's value
member is default-initialised and carries no specified value). -/
def readValuePtr (h : Heap α) (q : Option Ptr) : Option α :=
  match q with
  | some (Ptr.node a) => (getNode h a).map Node.value
  | _ => none

/-- The loop of `std::equal(lhs.begin(), lhs.end(), rhs.begin(), rhs.end())`
over two node chains: walks both, comparing values with `operator==`.
Fuel bounds the iteration count; `none` = UB (dangling pointer or cycle). -/
def equalAux [DecidableEq α] (h : Heap α) :
    Nat → Option Nat → Option Nat → Option Bool
  | _, none, none => some true
  | _, none, some _ => some false
  | _, some _, none => some false
  | 0, some _, some _ => none
  | fuel + 1, some a, some b =>
    match getNode h a, getNode h b with
    | some na, some nb =>
      if na.value = nb.value then equalAux h fuel na.next_node nb.next_node
      else some false
    | _, _ => none

/-- Source `operator==(lhs, rhs)`:
`return std::equal(lhs.begin(), lhs.end(), rhs.begin(), rhs.end());`. -/
def eqOp [DecidableEq α] (h : Heap α) (lhs rhs : SingleLinkedList) : Option Bool :=
  equalAux h (h.length + 1) lhs.head_next rhs.head_next

/-- Source `operator!=(lhs, rhs)`: `return !(lhs == rhs);`. -/
def neOp [DecidableEq α] (h : Heap α) (lhs rhs : SingleLinkedList) : Option Bool :=
  (eqOp h lhs rhs).map (fun b => !b)

/-- The loop of `std::lexicographical_compare(lhs.begin(), lhs.end(),
rhs.begin(), rhs.end())`: walks both chains; at each step, `*it1 < *it2`
answers true, `*it2 < *it1` answers false, otherwise advance; when a range
ends, the answer is `first1 == last1 && first2 != last2`. -/
def lexAux [LinearOrder α] (h : Heap α) :
    Nat → Option Nat → Option Nat → Option Bool
  | _, _, none => some false
  | _, none, some _ => some true
  | 0, some _, some _ => none
  | fuel + 1, some a, some b =>
    match getNode h a, getNode h b with
    | some na, some nb =>
      if na.value < nb.value then some true
      else if nb.value < na.value then some false
      else lexAux h fuel na.next_node nb.next_node
    | _, _ => none

/-- Source `operator<(lhs, rhs)`: `return std::lexicographical_compare(...)`. -/
def ltOp [LinearOrder α] (h : Heap α) (lhs rhs : SingleLinkedList) : Option Bool :=
  lexAux h (h.length + 1) lhs.head_next rhs.head_next

/-- Source `operator<=(lhs, rhs)`: `return !(rhs < lhs);`. -/
def leOp [LinearOrder α] (h : Heap α) (lhs rhs : SingleLinkedList) : Option Bool :=
  (ltOp h rhs lhs).map (fun b => !b)

/-- Source `operator>(lhs, rhs)`: `return rhs < lhs;`. -/
def gtOp [LinearOrder α] (h : Heap α) (lhs rhs : SingleLinkedList) : Option Bool :=
  ltOp h rhs lhs

/-- Source `operator>=(lhs, rhs)`: `return !(lhs < rhs);`. -/
def geOp [LinearOrder α] (h : Heap α) (lhs rhs : SingleLinkedList) : Option Bool :=
  (ltOp h lhs rhs).map (fun b => !b)

/-- The observation loop `for (auto it = list.begin(); it != list.end(); ++it)
collect(*it);` — iterate with pre-increment, read by dereference.  Fuel
bounds the iteration count; `none` = UB (dereferencing the sentinel or a
dangling pointer, or a cyclic chain). -/
def iterateAux (h : Heap α) : Nat → BasicIterator → Option (List α)
  | _, none => some []
  | 0, some _ => none
  | fuel + 1, some p =>
    match p with
    | Ptr.sentinel => none
    | Ptr.node a =>
      match getNode h a with
      | none => none
      | some n => (iterateAux h fuel (n.next_node.map Ptr.node)).map (n.value :: ·)

/-- The element sequence of a list, observed through `begin()`/`end()`,
pre-increment and dereference. -/
def toList (h : Heap α) (l : SingleLinkedList) : Option (List α) :=
  iterateAux h (h.length + 1) (begin l)

/-- The null-terminated node chain starting at pointer `p`: `as` is the
list of visited addresses, `vs` the list of stored values.  A derivation
exists exactly when the chain from `p` is finite, acyclic as a path, and
ends in a null next link. -/
inductive chain (h : Heap α) : Option Nat → List Nat → List α → Prop where
  | nil : chain h none [] []
  | cons {a : Nat} {n : Node α} {as : List Nat} {vs : List α} :
      getNode h a = some n → chain h n.next_node as vs →
      chain h (some a) (a :: as) (n.value :: vs)

/-- A chain segment from pointer `p` up to (exclusive) pointer `q`. -/
inductive seg (h : Heap α) : Option Nat → Option Nat → List Nat → List α → Prop where
  | refl (p : Option Nat) : seg h p p [] []
  | cons {a : Nat} {n : Node α} {q : Option Nat} {as : List Nat} {vs : List α} :
      getNode h a = some n → seg h n.next_node q as vs →
      seg h (some a) q (a :: as) (n.value :: vs)

/-- The list `l` holds exactly the element sequence `vs`: its chain stores
`vs` and `size_` agrees with the length. -/
def models (h : Heap α) (l : SingleLinkedList) (vs : List α) : Prop :=
  ∃ as, chain h l.head_next as vs ∧ l.size_ = vs.length

/-- The representation invariant: some element sequence is modelled
(named `InvL` because `Inv` is taken by the ambient library). -/
def InvL (h : Heap α) (l : SingleLinkedList) : Prop :=
  ∃ vs, models h l vs

/-- Source `pos` is a valid insertion/erasure anchor of list `l`: `before_begin()`
(the sentinel) or a real node of `l`'s chain.  `end()` and foreign nodes
are excluded, as the source's preconditions require. -/
def onList (h : Heap α) (l : SingleLinkedList) (pos : Ptr) : Prop :=
  pos = Ptr.sentinel ∨
    ∃ as vs c, chain h l.head_next as vs ∧ pos = Ptr.node c ∧ c ∈ as

/-- The states of a list reachable by non-failing public operations:
construction (default, from a value literal, copy), `PushFront`,
`InsertAfter`/`EraseAfter` at valid positions, `PopFront`, `Clear`,
`swap` and assignment (the partner list being itself reachable). -/
inductive Reachable : Heap α → SingleLinkedList → Prop where
  | empty (h : Heap α) : Reachable h emptyList
  | literal {h : Heap α} {h2 : Heap α} {l2 : SingleLinkedList} (vs : List α) :
      mkFromList h vs = (h2, l2) → Reachable h2 l2
  | push {h : Heap α} {l : SingleLinkedList} (v : α) {h2 : Heap α}
      {l2 : SingleLinkedList} : Reachable h l →
      PushFront h l v = (h2, l2) → Reachable h2 l2
  | insert {h : Heap α} {l : SingleLinkedList} {pos : Ptr} (v : α)
      {h2 : Heap α} {l2 : SingleLinkedList} {it : Ptr} : Reachable h l →
      onList h l pos → InsertAfter h l pos v = some (h2, l2, it) →
      Reachable h2 l2
  | pop {h : Heap α} {l : SingleLinkedList} {h2 : Heap α}
      {l2 : SingleLinkedList} : Reachable h l →
      PopFront h l = some (h2, l2) → Reachable h2 l2
  | erase {h : Heap α} {l : SingleLinkedList} {pos : Ptr} {h2 : Heap α}
      {l2 : SingleLinkedList} {it : BasicIterator} : Reachable h l →
      onList h l pos → EraseAfter h l pos = some (h2, l2, it) →
      Reachable h2 l2
  | clearStep {h : Heap α} {l : SingleLinkedList} {h2 : Heap α}
      {l2 : SingleLinkedList} : Reachable h l →
      Clear h l = (h2, l2) → Reachable h2 l2
  | swapped {h : Heap α} {a b : SingleLinkedList} : Reachable h a →
      Reachable h b → Reachable h (swapLists a b).1
  | copy {h : Heap α} {b : SingleLinkedList} (budget : Nat) {h2 : Heap α}
      {l2 : SingleLinkedList} : Reachable h b →
      copyCtorB h b budget = some (h2, some l2) → Reachable h2 l2
  | assignStep {h : Heap α} {a b : SingleLinkedList} (same : Bool)
      (budget : Nat) {h2 : Heap α} {a2 : SingleLinkedList} {ok : Bool} :
      Reachable h a → Reachable h b →
      assignB h a b same budget = some (h2, a2, ok) → Reachable h2 a2

/-- Fact: `getNode` succeeds only inside the allocated range. -/
theorem getNode_lt_length {h : Heap α} {a : Nat} {n : Node α}
    (hg : getNode h a = some n) : a < h.length := by
  by_contra hlt
  rw [getNode, List.getD_eq_default] at hg
  · exact Option.noConfusion hg
  · omega

/-- Reading inside the old range is unchanged by an append. -/
theorem getNode_append {h h2 : Heap α} {a : Nat} (ha : a < h.length) :
    getNode (h ++ h2) a = getNode h a := by
  unfold getNode
  rw [List.getD_eq_getElem?_getD, List.getD_eq_getElem?_getD,
    List.getElem?_append_left ha]

/-- Reading the freshly appended slot. -/
theorem getNode_append_self {h : Heap α} {x : Option (Node α)} :
    getNode (h ++ [x]) h.length = x := by
  unfold getNode
  rw [List.getD_eq_getElem?_getD, List.getElem?_append_right (Nat.le_refl _)]
  simp

/-- Reading another slot is unchanged by `List.set`. -/
theorem getNode_set_ne {h : Heap α} {a b : Nat} {x : Option (Node α)}
    (hne : a ≠ b) : getNode (h.set b x) a = getNode h a := by
  unfold getNode
  rw [List.getD_eq_getElem?_getD, List.getD_eq_getElem?_getD,
    List.getElem?_set_ne (fun he => hne he.symm)]

/-- Reading the slot just written by `List.set`. -/
theorem getNode_set_self {h : Heap α} {b : Nat} {x : Option (Node α)}
    (hb : b < h.length) : getNode (h.set b x) b = x := by
  unfold getNode
  rw [List.getD_eq_getElem?_getD, List.getElem?_set_self hb]
  rfl

/-- Fact: `setNextNode` keeps the heap length. -/
theorem length_setNextNode (h : Heap α) (a : Nat) (nxt : Option Nat) :
    (setNextNode h a nxt).length = h.length := by
  unfold setNextNode
  cases hg : getNode h a with
  | none => rfl
  | some n => exact List.length_set ..

/-- Fact: `freeNode` keeps the heap length. -/
theorem length_freeNode (h : Heap α) (a : Nat) :
    (freeNode h a).length = h.length :=
  List.length_set ..

/-- Fact: `setNextNode` leaves every other slot alone. -/
theorem getNode_setNextNode_ne {h : Heap α} {a b : Nat} {nxt : Option Nat}
    (hne : a ≠ b) : getNode (setNextNode h b nxt) a = getNode h a := by
  unfold setNextNode
  cases hg : getNode h b with
  | none => rfl
  | some n => exact getNode_set_ne hne

/-- Fact: `setNextNode` on an allocated slot updates exactly the next link. -/
theorem getNode_setNextNode_self {h : Heap α} {b : Nat} {n : Node α}
    {nxt : Option Nat} (hg : getNode h b = some n) :
    getNode (setNextNode h b nxt) b = some { n with next_node := nxt } := by
  unfold setNextNode
  rw [hg]
  exact getNode_set_self (getNode_lt_length hg)

/-- Fact: `freeNode` leaves every other slot alone. -/
theorem getNode_freeNode_ne {h : Heap α} {a b : Nat} (hne : a ≠ b) :
    getNode (freeNode h b) a = getNode h a :=
  getNode_set_ne hne

/-- A chain visits as many addresses as it stores values. -/
theorem chain_length_eq {h : Heap α} {p : Option Nat} {as : List Nat}
    {vs : List α} (hc : chain h p as vs) : as.length = vs.length := by
  induction hc with
  | nil => rfl
  | cons _ _ ih => simpa using ih

/-- Every address on a chain is allocated, hence inside the heap range. -/
theorem chain_mem_lt {h : Heap α} {p : Option Nat} {as : List Nat}
    {vs : List α} (hc : chain h p as vs) : ∀ a ∈ as, a < h.length := by
  induction hc with
  | nil => intro a ha; cases ha
  | cons hg _ ih =>
    intro b hb
    rcases List.mem_cons.mp hb with rfl | hb
    · exact getNode_lt_length hg
    · exact ih b hb

/-- A chain only depends on the heap at the addresses it visits. -/
theorem chain_frame {h h2 : Heap α} {p : Option Nat} {as : List Nat}
    {vs : List α} (hsame : ∀ a ∈ as, getNode h2 a = getNode h a)
    (hc : chain h p as vs) : chain h2 p as vs := by
  induction hc with
  | nil => exact chain.nil
  | cons hg hc2 ih =>
    refine chain.cons (n := _) ((hsame _ (List.mem_cons_self _ _)).trans hg)
      (ih fun b hb => hsame b (List.mem_cons_of_mem _ hb))

/-- The chain from a given pointer is unique. -/
theorem chain_det {h : Heap α} {p : Option Nat} {as as2 : List Nat}
    {vs vs2 : List α} (hc : chain h p as vs) (hc2 : chain h p as2 vs2) :
    as = as2 ∧ vs = vs2 := by
  induction hc generalizing as2 vs2 with
  | nil => cases hc2 with
    | nil => exact ⟨rfl, rfl⟩
  | cons hg hcnext ih =>
    cases hc2 with
    | cons hg2 hcnext2 =>
      rw [hg] at hg2
      cases hg2
      rcases ih hcnext2 with ⟨rfl, rfl⟩
      exact ⟨rfl, rfl⟩

/-- From any address on a chain, a strictly shorter chain starts. -/
theorem chain_mem_tail {h : Heap α} {p : Option Nat} {as : List Nat}
    {vs : List α} (hc : chain h p as vs) :
    ∀ a ∈ as, ∃ as2 vs2, chain h (some a) (a :: as2) vs2 ∧
      as2.length < as.length := by
  induction hc with
  | nil => intro a ha; cases ha
  | cons hg hc2 ih =>
    intro b hb
    rcases List.mem_cons.mp hb with rfl | hb
    · exact ⟨_, _, chain.cons hg hc2, by simp⟩
    · rcases ih b hb with ⟨as2, vs2, hch, hlen⟩
      exact ⟨as2, vs2, hch, by simp; omega⟩

/-- A null-terminated chain never revisits an address. -/
theorem chain_nodup {h : Heap α} {p : Option Nat} {as : List Nat}
    {vs : List α} (hc : chain h p as vs) : as.Nodup := by
  induction hc with
  | nil => exact List.nodup_nil
  | cons hg hc2 ih =>
    refine List.nodup_cons.mpr ⟨?_, ih⟩
    intro hmem
    rcases chain_mem_tail hc2 _ hmem with ⟨as2, vs2, hch, hlen⟩
    rcases chain_det (chain.cons hg hc2) hch with ⟨heq, _⟩
    have : _ = as2.length := congrArg List.length (List.cons.injEq .. ▸ heq).2
    omega

/-- A chain cannot be longer than the heap. -/
theorem chain_length_le {h : Heap α} {p : Option Nat} {as : List Nat}
    {vs : List α} (hc : chain h p as vs) : as.length ≤ h.length := by
  have hnd := chain_nodup hc
  have hsub : as.toFinset ⊆ Finset.range h.length := by
    intro a ha
    exact Finset.mem_range.mpr (chain_mem_lt hc a (List.mem_toFinset.mp ha))
  have := Finset.card_le_card hsub
  rwa [List.toFinset_card_of_nodup hnd, Finset.card_range] at this

/-- Composing a segment with the chain continuing from its endpoint. -/
theorem seg_append_chain {h : Heap α} {p q : Option Nat} {as bs : List Nat}
    {vs ws : List α} (hs : seg h p q as vs) (hc : chain h q bs ws) :
    chain h p (as ++ bs) (vs ++ ws) := by
  induction hs with
  | refl => simpa using hc
  | cons hg _ ih => exact chain.cons hg (ih hc)

/-- A segment only depends on the heap at the addresses it visits. -/
theorem seg_frame {h h2 : Heap α} {p q : Option Nat} {as : List Nat}
    {vs : List α} (hsame : ∀ a ∈ as, getNode h2 a = getNode h a)
    (hs : seg h p q as vs) : seg h2 p q as vs := by
  induction hs with
  | refl => exact seg.refl _
  | cons hg hs2 ih =>
    exact seg.cons ((hsame _ (List.mem_cons_self _ _)).trans hg)
      (ih fun b hb => hsame b (List.mem_cons_of_mem _ hb))

/-- Splitting a chain at a visited address. -/
theorem chain_decompose {h : Heap α} {p : Option Nat} {as : List Nat}
    {vs : List α} (hc : chain h p as vs) {c : Nat} (hmem : c ∈ as) :
    ∃ as1 vs1 n as2 vs2, as = as1 ++ c :: as2 ∧ vs = vs1 ++ n.value :: vs2 ∧
      seg h p (some c) as1 vs1 ∧ getNode h c = some n ∧
      chain h n.next_node as2 vs2 := by
  induction hc with
  | nil => cases hmem
  | cons hg hc2 ih =>
    rcases List.mem_cons.mp hmem with rfl | hmem2
    · exact ⟨[], [], _, _, _, rfl, rfl, seg.refl _, hg, hc2⟩
    · rcases ih hmem2 with ⟨as1, vs1, n2, as2, vs2, ha, hv, hseg, hg2, hch⟩
      exact ⟨_ :: as1, _ :: vs1, n2, as2, vs2, by rw [ha]; rfl,
        by rw [hv]; rfl, seg.cons hg hseg, hg2, hch⟩

/-- Iterating with `begin`-style pointers along a chain yields its values. -/
theorem chain_iterate {h : Heap α} {p : Option Nat} {as : List Nat}
    {vs : List α} (hc : chain h p as vs) :
    ∀ fuel, vs.length ≤ fuel → iterateAux h fuel (p.map Ptr.node) = some vs := by
  induction hc with
  | nil => intro fuel _; cases fuel <;> rfl
  | cons hg hc2 ih =>
    intro fuel hle
    match fuel with
    | f + 1 =>
      show iterateAux h (f + 1) (some (Ptr.node _)) = _
      have hstep := ih f (by simp at hle; omega)
      simp [iterateAux, hg, hstep]

/-- Observing a modelled list through iterators yields its sequence, and
`GetSize` its length. -/
theorem models_toList {h : Heap α} {l : SingleLinkedList} {vs : List α}
    (hm : models h l vs) : toList h l = some vs ∧ GetSize l = vs.length := by
  rcases hm with ⟨as, hc, hs⟩
  refine ⟨?_, hs⟩
  have hlen : vs.length ≤ h.length + 1 := by
    have h1 := chain_length_le hc
    have h2 := chain_length_eq hc
    omega
  exact chain_iterate hc (h.length + 1) hlen

/-- Inverting a chain starting at a non-null pointer. -/
theorem chain_some_inv {h : Heap α} {a : Nat} {as : List Nat} {vs : List α}
    (hc : chain h (some a) as vs) :
    ∃ n as2 vs2, getNode h a = some n ∧ as = a :: as2 ∧
      vs = n.value :: vs2 ∧ chain h n.next_node as2 vs2 := by
  cases hc with
  | cons hg hc2 => exact ⟨_, _, _, hg, rfl, rfl, hc2⟩

/-- Inverting a chain starting at the null pointer. -/
theorem chain_none_inv {h : Heap α} {as : List Nat} {vs : List α}
    (hc : chain h none as vs) : as = [] ∧ vs = [] := by
  cases hc
  exact ⟨rfl, rfl⟩

/-- Inverting a chain holding a cons of values. -/
theorem chain_val_cons_inv {h : Heap α} {p : Option Nat} {as : List Nat}
    {v : α} {vs : List α} (hc : chain h p as (v :: vs)) :
    ∃ a n as2, p = some a ∧ getNode h a = some n ∧ n.value = v ∧
      as = a :: as2 ∧ chain h n.next_node as2 vs := by
  cases hc with
  | cons hg hc2 => exact ⟨_, _, _, rfl, hg, rfl, rfl, hc2⟩

/-- Inverting a chain holding no values. -/
theorem chain_val_nil_inv {h : Heap α} {p : Option Nat} {as : List Nat}
    (hc : chain h p as ([] : List α)) : p = none ∧ as = [] := by
  cases hc
  exact ⟨rfl, rfl⟩

/-- Fact: `PushFront` prepends the value to the modelled sequence. -/
theorem PushFront_models {h : Heap α} {l : SingleLinkedList} {vs : List α}
    (v : α) (hm : models h l vs) :
    models (PushFront h l v).1 (PushFront h l v).2 (v :: vs) := by
  rcases hm with ⟨as, hc, hs⟩
  refine ⟨h.length :: as, ?_, by simp [PushFront, hs]⟩
  show chain (h ++ [some ⟨v, l.head_next⟩]) (some h.length) _ _
  refine chain.cons (n := ⟨v, l.head_next⟩) getNode_append_self ?_
  exact chain_frame
    (fun b hb => getNode_append (chain_mem_lt hc b hb)) hc

/-- Fact: `PopFront` on a non-empty list removes the first value. -/
theorem PopFront_models {h : Heap α} {l : SingleLinkedList} {v : α}
    {vs : List α} (hm : models h l (v :: vs)) :
    ∃ h2 l2, PopFront h l = some (h2, l2) ∧ models h2 l2 vs := by
  rcases hm with ⟨as, hc, hs⟩
  rcases chain_val_cons_inv hc with ⟨d, n, as2, hp, hg, _, rfl, hc2⟩
  have hnd := chain_nodup hc
  rw [List.nodup_cons] at hnd
  refine ⟨freeNode h d, { head_next := n.next_node, size_ := l.size_ - 1 },
    ?_, ⟨as2, ?_, ?_⟩⟩
  · simp [PopFront, hp, hg]
  · exact chain_frame
      (fun b hb => getNode_freeNode_ne (fun he => hnd.1 (he ▸ hb))) hc2
  · simp at hs ⊢
    omega

/-- Fact: `InsertAfter` at `before_begin` (the sentinel) prepends the value; the
returned iterator references the fresh node, which holds the value. -/
theorem InsertAfter_sentinel_spec {h : Heap α} {l : SingleLinkedList}
    {vs : List α} (v : α) (hm : models h l vs) :
    ∃ h2 l2, InsertAfter h l Ptr.sentinel v = some (h2, l2, Ptr.node h.length) ∧
      models h2 l2 (v :: vs) ∧ l2.size_ = l.size_ + 1 ∧
      getNode h2 h.length = some ⟨v, l.head_next⟩ := by
  rcases hm with ⟨as, hc, hs⟩
  refine ⟨h ++ [some ⟨v, l.head_next⟩],
    { head_next := some h.length, size_ := l.size_ + 1 }, ?_,
    ⟨h.length :: as, ?_, by simp [hs]⟩, rfl, getNode_append_self⟩
  · rfl
  refine chain.cons (n := ⟨v, l.head_next⟩) getNode_append_self ?_
  exact chain_frame (fun b hb => getNode_append (chain_mem_lt hc b hb)) hc

/-- Fact: `EraseAfter` at `before_begin` (the sentinel) removes the first value
(the `PopFront` equivalent). -/
theorem EraseAfter_sentinel_spec {h : Heap α} {l : SingleLinkedList} {v : α}
    {vs : List α} (hm : models h l (v :: vs)) :
    ∃ h2 l2 it, EraseAfter h l Ptr.sentinel = some (h2, l2, it) ∧
      models h2 l2 vs ∧ l2.size_ = l.size_ - 1 := by
  rcases hm with ⟨as, hc, hs⟩
  rcases chain_val_cons_inv hc with ⟨d, n, as2, hp, hg, _, rfl, hc2⟩
  have hnd := chain_nodup hc
  rw [List.nodup_cons] at hnd
  refine ⟨freeNode h d, { head_next := n.next_node, size_ := l.size_ - 1 },
    n.next_node.map Ptr.node, ?_, ⟨as2, ?_, ?_⟩, rfl⟩
  · simp [EraseAfter, readNext, writeNext, hp, hg]
  · exact chain_frame
      (fun b hb => getNode_freeNode_ne (fun he => hnd.1 (he ▸ hb))) hc2
  · simp at hs ⊢
    omega

/-- Fact: `InsertAfter` at a real node `c` of the list splices one fresh node
holding the value directly behind `c`, returns an iterator to that node,
increments the size, and leaves the rest of the chain intact. -/
theorem InsertAfter_node_spec {h : Heap α} {l : SingleLinkedList}
    {as1 : List Nat} {vs1 : List α} {c : Nat} {n : Node α}
    {as2 : List Nat} {vs2 : List α} (v : α)
    (hseg : seg h l.head_next (some c) as1 vs1)
    (hg : getNode h c = some n)
    (hch : chain h n.next_node as2 vs2)
    (hs : l.size_ = (vs1 ++ n.value :: vs2).length) :
    ∃ h2, InsertAfter h l (Ptr.node c) v =
        some (h2, { l with size_ := l.size_ + 1 }, Ptr.node h.length) ∧
      getNode h2 h.length = some ⟨v, n.next_node⟩ ∧
      getNode h2 c = some { n with next_node := some h.length } ∧
      seg h2 l.head_next (some c) as1 vs1 ∧
      chain h2 n.next_node as2 vs2 ∧
      models h2 { l with size_ := l.size_ + 1 } (vs1 ++ n.value :: v :: vs2) := by
  have hfull : chain h l.head_next (as1 ++ c :: as2) (vs1 ++ n.value :: vs2) :=
    seg_append_chain hseg (chain.cons hg hch)
  have hnd := chain_nodup hfull
  rcases List.nodup_append.mp hnd with ⟨-, hnd2, hdisj⟩
  have hcas1 : c ∉ as1 := fun hmem => hdisj hmem (List.mem_cons_self _ _)
  have hcas2 : c ∉ as2 := (List.nodup_cons.mp hnd2).1
  have hmlt := chain_mem_lt hfull
  have hclt : c < h.length := getNode_lt_length hg
  refine ⟨setNextNode (h ++ [some ⟨v, n.next_node⟩]) c (some h.length),
    ?_, ?_, ?_, ?_, ?_, ?_⟩
  · simp [InsertAfter, readNext, writeNext, hg, allocNode]
  · rw [getNode_setNextNode_ne (by omega)]
    exact getNode_append_self
  · exact getNode_setNextNode_self ((getNode_append hclt).trans hg)
  · refine seg_frame (fun b hb => ?_) hseg
    have hblt : b < h.length := hmlt b (List.mem_append_left _ hb)
    have hbc : b ≠ c := fun he => hcas1 (he ▸ hb)
    rw [getNode_setNextNode_ne hbc, getNode_append hblt]
  · refine chain_frame (fun b hb => ?_) hch
    have hblt : b < h.length :=
      hmlt b (List.mem_append_right _ (List.mem_cons_of_mem _ hb))
    have hbc : b ≠ c := fun he => hcas2 (he ▸ hb)
    rw [getNode_setNextNode_ne hbc, getNode_append hblt]
  · refine ⟨as1 ++ c :: h.length :: as2, ?_, ?_⟩
    · refine seg_append_chain (seg_frame (fun b hb => ?_) hseg) ?_
      · have hblt : b < h.length := hmlt b (List.mem_append_left _ hb)
        have hbc : b ≠ c := fun he => hcas1 (he ▸ hb)
        rw [getNode_setNextNode_ne hbc, getNode_append hblt]
      · refine chain.cons (n := { n with next_node := some h.length })
          (getNode_setNextNode_self ((getNode_append hclt).trans hg)) ?_
        refine chain.cons (n := ⟨v, n.next_node⟩) ?_ ?_
        · rw [getNode_setNextNode_ne (by omega)]
          exact getNode_append_self
        · refine chain_frame (fun b hb => ?_) hch
          have hblt : b < h.length :=
            hmlt b (List.mem_append_right _ (List.mem_cons_of_mem _ hb))
          have hbc : b ≠ c := fun he => hcas2 (he ▸ hb)
          rw [getNode_setNextNode_ne hbc, getNode_append hblt]
    · simp at hs ⊢
      omega

/-- Fact: `EraseAfter` at a real node `c` deletes the node following `c`,
splices the chain around it, decrements the size, and returns an iterator
to the node now following `c`. -/
theorem EraseAfter_node_spec {h : Heap α} {l : SingleLinkedList}
    {as1 : List Nat} {vs1 : List α} {c d : Nat} {n m : Node α}
    {as2 : List Nat} {vs2 : List α}
    (hseg : seg h l.head_next (some c) as1 vs1)
    (hg : getNode h c = some n)
    (hnx : n.next_node = some d)
    (hgd : getNode h d = some m)
    (hch : chain h m.next_node as2 vs2)
    (hs : l.size_ = (vs1 ++ n.value :: m.value :: vs2).length) :
    ∃ h2, EraseAfter h l (Ptr.node c) =
        some (h2, { l with size_ := l.size_ - 1 }, m.next_node.map Ptr.node) ∧
      models h2 { l with size_ := l.size_ - 1 } (vs1 ++ n.value :: vs2) := by
  have hfull : chain h l.head_next (as1 ++ c :: d :: as2)
      (vs1 ++ n.value :: m.value :: vs2) := by
    refine seg_append_chain hseg (chain.cons hg ?_)
    rw [hnx]
    exact chain.cons hgd hch
  have hnd := chain_nodup hfull
  rcases List.nodup_append.mp hnd with ⟨-, hnd2, hdisj⟩
  have hcas1 : c ∉ as1 := fun hmem => hdisj hmem (List.mem_cons_self _ _)
  have hdas1 : d ∉ as1 := fun hmem =>
    hdisj hmem (List.mem_cons_of_mem _ (List.mem_cons_self _ _))
  rcases List.nodup_cons.mp hnd2 with ⟨hcd2, hnd3⟩
  have hcd : c ≠ d := fun he => hcd2 (he ▸ List.mem_cons_self _ _)
  have hcas2 : c ∉ as2 := fun hmem => hcd2 (List.mem_cons_of_mem _ hmem)
  have hdas2 : d ∉ as2 := (List.nodup_cons.mp hnd3).1
  have hmlt := chain_mem_lt hfull
  have hgc1 : getNode (freeNode h d) c = some n :=
    (getNode_freeNode_ne hcd).trans hg
  refine ⟨setNextNode (freeNode h d) c m.next_node, ?_, ?_⟩
  · simp [EraseAfter, readNext, writeNext, hg, hnx, hgd]
  · refine ⟨as1 ++ c :: as2, ?_, ?_⟩
    · refine seg_append_chain (seg_frame (fun b hb => ?_) hseg)
        (chain.cons (n := { n with next_node := m.next_node })
          (getNode_setNextNode_self hgc1) (chain_frame (fun b hb => ?_) hch))
      · have hbc : b ≠ c := fun he => hcas1 (he ▸ hb)
        have hbd : b ≠ d := fun he => hdas1 (he ▸ hb)
        rw [getNode_setNextNode_ne hbc, getNode_freeNode_ne hbd]
      · have hbc : b ≠ c := fun he => hcas2 (he ▸ hb)
        have hbd : b ≠ d := fun he => hdas2 (he ▸ hb)
        rw [getNode_setNextNode_ne hbc, getNode_freeNode_ne hbd]
    · simp at hs ⊢
      omega

/-- The `Clear` loop walks its chain, frees exactly the visited slots, sets
the head link to null, and touches nothing else. -/
theorem clearLoop_spec :
    ∀ (vs : List α) (as : List Nat) (h : Heap α) (l : SingleLinkedList)
      (fuel : Nat), chain h l.head_next as vs → as.length ≤ fuel →
    ∃ h2, clearLoop fuel h l = (h2, { l with head_next := none }) ∧
      h2.length = h.length ∧ ∀ b, b ∉ as → getNode h2 b = getNode h b := by
  intro vs
  induction vs with
  | nil =>
    intro as h l fuel hc _
    rcases chain_val_nil_inv hc with ⟨hp, rfl⟩
    refine ⟨h, ?_, rfl, fun b _ => rfl⟩
    cases fuel with
    | zero => cases l; simp at hp; subst hp; simp [clearLoop]
    | succ f => cases l; simp at hp; subst hp; simp [clearLoop]
  | cons v vs2 ih =>
    intro as h l fuel hc hfuel
    rcases chain_val_cons_inv hc with ⟨d, n, as2, hp, hg, _, rfl, hc2⟩
    have hnd := chain_nodup hc
    rcases List.nodup_cons.mp hnd with ⟨hdas2, -⟩
    match fuel with
    | f + 1 =>
      have hc3 : chain (freeNode h d)
          ({ l with head_next := (getNode h d).bind Node.next_node }).head_next
          as2 vs2 := by
        show chain _ ((getNode h d).bind Node.next_node) _ _
        rw [hg]
        refine chain_frame (fun b hb => ?_) hc2
        exact getNode_freeNode_ne (fun he => hdas2 (he ▸ hb))
      rcases ih as2 (freeNode h d) _ f hc3 (by simp at hfuel; omega)
        with ⟨h2, hrun, hlen, hframe⟩
      refine ⟨h2, ?_, ?_, ?_⟩
      · show clearLoop (f + 1) h l = _
        rw [clearLoop, hp]
        simpa using hrun
      · rw [hlen]
        exact length_freeNode ..
      · intro b hb
        rw [List.mem_cons, not_or] at hb
        rw [hframe b hb.2]
        exact getNode_freeNode_ne hb.1

/-- Fact: `Clear()` empties the list: null head link, size zero; only the freed
chain slots change. -/
theorem Clear_spec {h : Heap α} {l : SingleLinkedList} {as : List Nat}
    {vs : List α} (hc : chain h l.head_next as vs) :
    ∃ h2, Clear h l = (h2, emptyList) ∧ h2.length = h.length ∧
      ∀ b, b ∉ as → getNode h2 b = getNode h b := by
  have hfuel : as.length ≤ h.length + 1 := by
    have := chain_length_le hc
    omega
  rcases clearLoop_spec vs as h l (h.length + 1) hc hfuel
    with ⟨h2, hrun, hlen, hframe⟩
  exact ⟨h2, by simp [Clear, hrun, emptyList], hlen, hframe⟩

/-- The `Init` loop over a value range, entered with the cursor on a node
`c` whose next link is null: it appends all remaining values as a fresh
chain behind `c`, touching no other pre-existing slot. -/
theorem InitLoop_node_spec :
    ∀ (vs : List α) (h : Heap α) (l : SingleLinkedList) (c : Nat) (n : Node α),
    getNode h c = some n → n.next_node = none →
    ∃ h2 l2 bs n2, InitLoop h l (Ptr.node c) vs = (h2, l2) ∧
      (∀ b, b < h.length → b ≠ c → getNode h2 b = getNode h b) ∧
      h.length ≤ h2.length ∧
      l2.head_next = l.head_next ∧ l2.size_ = l.size_ + vs.length ∧
      (∃ n2val, getNode h2 c = some n2 ∧ n2.value = n.value ∧ n2val = n2) ∧
      chain h2 n2.next_node bs vs ∧
      (∀ b ∈ bs, h.length ≤ b) := by
  intro vs
  induction vs with
  | nil =>
    intro h l c n hg hnx
    refine ⟨h, l, [], n, rfl, fun b _ _ => rfl, Nat.le_refl _, rfl, by simp,
      ⟨n, hg, rfl, rfl⟩, ?_, by simp⟩
    rw [hnx]
    exact chain.nil
  | cons v vs2 ih =>
    intro h l c n hg hnx
    have hclt : c < h.length := getNode_lt_length hg
    have g1 : getNode (h ++ [some ⟨v, none⟩]) c = some n :=
      (getNode_append hclt).trans hg
    have gna : getNode (setNextNode (h ++ [some ⟨v, none⟩]) c (some h.length))
        h.length = some ⟨v, none⟩ := by
      rw [getNode_setNextNode_ne (by omega)]
      exact getNode_append_self
    have hlenset : (setNextNode (h ++ [some ⟨v, none⟩]) c (some h.length)).length
        = h.length + 1 := by
      rw [length_setNextNode]
      simp
    rcases ih (setNextNode (h ++ [some ⟨v, none⟩]) c (some h.length))
      { l with size_ := l.size_ + 1 } h.length ⟨v, none⟩ gna rfl with
      ⟨h2, l2, bs2, n2, hrun, hframe, hle, hhead, hsize, ⟨-, hg2, hval2, -⟩,
        hch2, hfresh2⟩
    refine ⟨h2, l2, h.length :: bs2, { n with next_node := some h.length },
      ?_, ?_, ?_, hhead, ?_, ⟨_, ?_, rfl, rfl⟩, ?_, ?_⟩
    · show InitLoop h l (Ptr.node c) (v :: vs2) = (h2, l2)
      rw [InitLoop]
      exact hrun
    · intro b hblt hbc
      rw [hframe b (by omega) (by omega), getNode_setNextNode_ne hbc,
        getNode_append hblt]
    · omega
    · simp at hsize ⊢
      omega
    · rw [hframe c (by omega) (by omega)]
      exact getNode_setNextNode_self g1
    · show chain h2 (some h.length) _ _
      have := chain.cons (h := h2) hg2 hch2
      rwa [hval2] at this
    · intro b hb
      rcases List.mem_cons.mp hb with rfl | hb
      · exact Nat.le_refl _
      · have := hfresh2 b hb
        omega

/-- Fact: `Init` on a freshly default-constructed list builds a fresh chain
holding exactly the given values, and leaves the pre-existing heap alone. -/
theorem Init_spec (vs : List α) (h : Heap α) (l : SingleLinkedList)
    (hhd : l.head_next = none) :
    ∃ h2 l2 bs, Init h l vs = (h2, l2) ∧
      (∀ b, b < h.length → getNode h2 b = getNode h b) ∧
      h.length ≤ h2.length ∧ l2.size_ = l.size_ + vs.length ∧
      chain h2 l2.head_next bs vs ∧ (∀ b ∈ bs, h.length ≤ b) := by
  cases vs with
  | nil =>
    refine ⟨h, l, [], rfl, fun b _ => rfl, Nat.le_refl _, by simp, ?_, by simp⟩
    rw [hhd]
    exact chain.nil
  | cons v vs2 =>
    rcases InitLoop_node_spec vs2 (h ++ [some ⟨v, none⟩])
      { head_next := some h.length, size_ := l.size_ + 1 } h.length ⟨v, none⟩
      getNode_append_self rfl with
      ⟨h2, l2, bs2, n2, hrun, hframe, hle, hhead, hsize, ⟨-, hg2, hval2, -⟩,
        hch2, hfresh2⟩
    refine ⟨h2, l2, h.length :: bs2, ?_, ?_, by simp at hle ⊢; omega, ?_, ?_, ?_⟩
    · show InitLoop h l Ptr.sentinel (v :: vs2) = (h2, l2)
      rw [InitLoop]
      exact hrun
    · intro b hblt
      rw [hframe b (by simp; omega) (by omega), getNode_append hblt]
    · simp at hsize ⊢
      omega
    · rw [hhead]
      show chain h2 (some h.length) _ _
      have := chain.cons (h := h2) hg2 hch2
      rwa [hval2] at this
    · intro b hb
      rcases List.mem_cons.mp hb with rfl | hb
      · exact Nat.le_refl _
      · have := hfresh2 b hb
        simp at this
        omega

/-- The `initializer_list` constructor builds a list modelling exactly the
given values, over a fresh chain, leaving the pre-existing heap alone. -/
theorem mkFromList_spec (h : Heap α) (vs : List α) :
    ∃ h2 l2 bs, mkFromList h vs = (h2, l2) ∧ models h2 l2 vs ∧
      (∀ b, b < h.length → getNode h2 b = getNode h b) ∧
      h.length ≤ h2.length ∧
      chain h2 l2.head_next bs vs ∧ (∀ b ∈ bs, h.length ≤ b) := by
  rcases Init_spec vs h emptyList rfl with
    ⟨h1, tmp, bs, hrun, hframe, hle, hsize, hch, hfresh⟩
  refine ⟨h1, tmp, bs, ?_, ⟨bs, hch, by simpa [emptyList] using hsize⟩, hframe, hle,
    hch, hfresh⟩
  show (let p := Init h emptyList vs
    let q := swapLists emptyList p.2
    let r := Clear p.1 q.2
    (r.1, q.1)) = (h1, tmp)
  rw [hrun]
  show ((Clear h1 { head_next := none, size_ := 0 }).1,
    { head_next := tmp.head_next, size_ := tmp.size_ }) = (h1, tmp)
  have hcl : Clear h1 { head_next := none, size_ := (0 : Nat) } =
      (h1, { head_next := none, size_ := 0 }) := by
    rw [Clear, clearLoop]
  rw [hcl]

/-- The copy-`Init` loop entered with the cursor on a node `c` whose next
link is null, reading a source chain: with enough budget it copies all
remaining source values behind `c`; when the budget runs out it throws,
having built exactly the first `budget` copies; pre-existing slots other
than `c` are never touched. -/
theorem InitFromChain_node_spec :
    ∀ (vs : List α) (as : List Nat) (h : Heap α) (l : SingleLinkedList)
      (c : Nat) (n : Node α) (p : Option Nat) (fuel budget : Nat),
    chain h p as vs → vs.length ≤ fuel →
    getNode h c = some n → n.next_node = none → c ∉ as →
    ∃ h2 l2 bs n2,
      InitFromChain h l (Ptr.node c) fuel budget p =
        some ((h2, l2), decide (vs.length ≤ budget)) ∧
      (∀ b, b < h.length → b ≠ c → getNode h2 b = getNode h b) ∧
      h.length ≤ h2.length ∧
      l2.head_next = l.head_next ∧
      (vs.length ≤ budget → l2.size_ = l.size_ + vs.length) ∧
      getNode h2 c = some n2 ∧ n2.value = n.value ∧
      chain h2 n2.next_node bs (vs.take budget) ∧
      (∀ b ∈ bs, h.length ≤ b) := by
  intro vs
  induction vs with
  | nil =>
    intro as h l c n p fuel budget hc _ hg hnx _
    rcases chain_val_nil_inv hc with ⟨rfl, rfl⟩
    refine ⟨h, l, [], n, by cases fuel <;> simp [InitFromChain], fun b _ _ => rfl,
      Nat.le_refl _, rfl, by simp, hg, rfl, ?_, by simp⟩
    rw [List.take_nil, hnx]
    exact chain.nil
  | cons v vs2 ih =>
    intro as h l c n p fuel budget hc hfuel hg hnx hcas
    rcases chain_val_cons_inv hc with ⟨a, sn, as2, rfl, hga, hv, rfl, hc2⟩
    have hclt : c < h.length := getNode_lt_length hg
    have has2lt : ∀ b ∈ as2, b < h.length :=
      fun b hb => chain_mem_lt hc b (List.mem_cons_of_mem _ hb)
    have hcas2 : c ∉ as2 := fun hmem => hcas (List.mem_cons_of_mem _ hmem)
    match fuel with
    | f + 1 =>
      match budget with
      | 0 =>
        refine ⟨h, { l with size_ := l.size_ + 1 }, [], n, ?_, fun b _ _ => rfl,
          Nat.le_refl _, rfl, by simp, hg, rfl, ?_, by simp⟩
        · simp [InitFromChain, hga]
        · rw [List.take_zero, hnx]
          exact chain.nil
      | g + 1 =>
        have g1 : getNode (h ++ [some ⟨sn.value, none⟩]) c = some n :=
          (getNode_append hclt).trans hg
        have gna : getNode
            (setNextNode (h ++ [some ⟨sn.value, none⟩]) c (some h.length))
            h.length = some ⟨sn.value, none⟩ := by
          rw [getNode_setNextNode_ne (by omega)]
          exact getNode_append_self
        have hlenset :
            (setNextNode (h ++ [some ⟨sn.value, none⟩]) c (some h.length)).length
            = h.length + 1 := by
          rw [length_setNextNode]
          simp
        have hch1 : chain
            (setNextNode (h ++ [some ⟨sn.value, none⟩]) c (some h.length))
            sn.next_node as2 vs2 := by
          refine chain_frame (fun b hb => ?_) hc2
          have hbc : b ≠ c := fun he => hcas2 (he ▸ hb)
          rw [getNode_setNextNode_ne hbc, getNode_append (has2lt b hb)]
        have hna2 : h.length ∉ as2 := fun hmem => by
          have := has2lt _ hmem
          omega
        rcases ih as2 (setNextNode (h ++ [some ⟨sn.value, none⟩]) c
            (some h.length)) { l with size_ := l.size_ + 1 } h.length
            ⟨sn.value, none⟩ sn.next_node f g hch1
            (by simp at hfuel; omega) gna rfl hna2 with
          ⟨h2, l2, bs2, n2, hrun, hframe, hle, hhead, hsizeok, hg2, hval2,
            hch2, hfresh2⟩
        refine ⟨h2, l2, h.length :: bs2, { n with next_node := some h.length },
          ?_, ?_, ?_, hhead, ?_, ?_, rfl, ?_, ?_⟩
        · show InitFromChain h l (Ptr.node c) (f + 1) (g + 1) (some a) = _
          simp [InitFromChain, hga, allocNode, writeNext, hrun]
        · intro b hblt hbc
          rw [hframe b (by omega) (by omega), getNode_setNextNode_ne hbc,
            getNode_append hblt]
        · omega
        · intro hble
          have : vs2.length ≤ g := by simp at hble; omega
          have := hsizeok this
          simp at this ⊢
          omega
        · rw [hframe c (by omega) (by omega)]
          exact getNode_setNextNode_self g1
        · show chain h2 (some h.length) _ _
          have hcons := chain.cons (h := h2) hg2 hch2
          rw [hval2] at hcons
          simpa [hv] using hcons
        · intro b hb
          rcases List.mem_cons.mp hb with rfl | hb
          · exact Nat.le_refl _
          · have := hfresh2 b hb
            omega

/-- The copy-`Init` loop started at the sentinel of a fresh list: it copies
the first `budget` source values (all of them when the budget suffices,
reporting success), into fresh slots only. -/
theorem InitFromChain_spec (vs : List α) (as : List Nat) (h : Heap α)
    (l : SingleLinkedList) (p : Option Nat) (fuel budget : Nat)
    (hc : chain h p as vs) (hhd : l.head_next = none)
    (hfuel : vs.length ≤ fuel) :
    ∃ h2 l2 bs,
      InitFromChain h l Ptr.sentinel fuel budget p =
        some ((h2, l2), decide (vs.length ≤ budget)) ∧
      (∀ b, b < h.length → getNode h2 b = getNode h b) ∧
      h.length ≤ h2.length ∧
      (vs.length ≤ budget → l2.size_ = l.size_ + vs.length) ∧
      chain h2 l2.head_next bs (vs.take budget) ∧
      (∀ b ∈ bs, h.length ≤ b) := by
  cases vs with
  | nil =>
    rcases chain_val_nil_inv hc with ⟨rfl, rfl⟩
    refine ⟨h, l, [], by cases fuel <;> simp [InitFromChain], fun b _ => rfl,
      Nat.le_refl _, by simp, ?_, by simp⟩
    rw [List.take_nil, hhd]
    exact chain.nil
  | cons v vs2 =>
    rcases chain_val_cons_inv hc with ⟨a, sn, as2, rfl, hga, hv, rfl, hc2⟩
    have has2lt : ∀ b ∈ as2, b < h.length :=
      fun b hb => chain_mem_lt hc b (List.mem_cons_of_mem _ hb)
    match fuel with
    | f + 1 =>
      match budget with
      | 0 =>
        refine ⟨h, { l with size_ := l.size_ + 1 }, [], ?_, fun b _ => rfl,
          Nat.le_refl _, by simp, ?_, by simp⟩
        · simp [InitFromChain, hga]
        · rw [List.take_zero]
          show chain h l.head_next [] []
          rw [hhd]
          exact chain.nil
      | g + 1 =>
        have hch1 : chain (h ++ [some ⟨sn.value, none⟩]) sn.next_node as2 vs2 :=
          chain_frame (fun b hb => getNode_append (has2lt b hb)) hc2
        have hna2 : h.length ∉ as2 := fun hmem => by
          have := has2lt _ hmem
          omega
        rcases InitFromChain_node_spec vs2 as2 (h ++ [some ⟨sn.value, none⟩])
            { head_next := some h.length, size_ := l.size_ + 1 } h.length
            ⟨sn.value, none⟩ sn.next_node f g hch1
            (by simp at hfuel; omega) getNode_append_self rfl hna2 with
          ⟨h2, l2, bs2, n2, hrun, hframe, hle, hhead, hsizeok, hg2, hval2,
            hch2, hfresh2⟩
        refine ⟨h2, l2, h.length :: bs2, ?_, ?_, by simp at hle ⊢; omega,
          ?_, ?_, ?_⟩
        · show InitFromChain h l Ptr.sentinel (f + 1) (g + 1) (some a) = _
          simp [InitFromChain, hga, allocNode, writeNext, hrun]
        · intro b hblt
          rw [hframe b (by simp; omega) (by omega), getNode_append hblt]
        · intro hble
          have hb2 : vs2.length ≤ g := by simp at hble; omega
          have := hsizeok hb2
          simp at this ⊢
          omega
        · rw [hhead]
          show chain h2 (some h.length) _ _
          have hcons := chain.cons (h := h2) hg2 hch2
          rw [hval2] at hcons
          simpa [hv] using hcons
        · intro b hb
          rcases List.mem_cons.mp hb with rfl | hb
          · exact Nat.le_refl _
          · have := hfresh2 b hb
            simp at this
            omega

/-- The copy constructor with sufficient allocation budget produces a list
modelling the source's sequence over fresh slots, leaving the pre-existing
heap alone. -/
theorem copyCtorB_ok_spec {h : Heap α} {other : SingleLinkedList}
    {as : List Nat} {vs : List α} {budget : Nat}
    (hc : chain h other.head_next as vs) (hb : vs.length ≤ budget) :
    ∃ h2 l2 bs, copyCtorB h other budget = some (h2, some l2) ∧
      models h2 l2 vs ∧
      (∀ b, b < h.length → getNode h2 b = getNode h b) ∧
      h.length ≤ h2.length ∧
      chain h2 l2.head_next bs vs ∧ (∀ b ∈ bs, h.length ≤ b) := by
  have hfuel : vs.length ≤ h.length + 1 := by
    have h1 := chain_length_le hc
    have h2 := chain_length_eq hc
    omega
  rcases InitFromChain_spec vs as h emptyList other.head_next (h.length + 1)
    budget hc rfl hfuel with
    ⟨h1, tmp, bs, hrun, hframe, hle, hsize, hch, hfresh⟩
  rw [decide_eq_true hb] at hrun
  rw [List.take_of_length_le hb] at hch
  have hsz := hsize hb
  refine ⟨h1, tmp, bs, ?_, ⟨bs, hch, by simpa [emptyList] using hsz⟩,
    hframe, hle, hch, hfresh⟩
  rw [copyCtorB, hrun]
  have hcl0 : Clear h1 { head_next := none, size_ := (0 : Nat) } =
      (h1, { head_next := none, size_ := 0 }) := by
    rw [Clear, clearLoop]
  simp [swapLists, emptyList, hcl0]

/-- The copy constructor with insufficient budget throws: the partially
built chain is freed again by the temporary's destructor, and slots of the
pre-existing heap are left unchanged. -/
theorem copyCtorB_fail_spec {h : Heap α} {other : SingleLinkedList}
    {as : List Nat} {vs : List α} {budget : Nat}
    (hc : chain h other.head_next as vs) (hb : budget < vs.length) :
    ∃ h2, copyCtorB h other budget = some (h2, none) ∧
      (∀ b, b < h.length → getNode h2 b = getNode h b) ∧
      h.length ≤ h2.length := by
  have hfuel : vs.length ≤ h.length + 1 := by
    have h1 := chain_length_le hc
    have h2 := chain_length_eq hc
    omega
  rcases InitFromChain_spec vs as h emptyList other.head_next (h.length + 1)
    budget hc rfl hfuel with
    ⟨h1, tmp, bs, hrun, hframe, hle, -, hch, hfresh⟩
  rw [decide_eq_false (by omega)] at hrun
  rcases Clear_spec hch with ⟨h2, hcl, hlen2, hframe2⟩
  refine ⟨h2, ?_, ?_, ?_⟩
  · rw [copyCtorB, hrun]
    simp [hcl]
  · intro b hblt
    have hbnotbs : b ∉ bs := fun hmem => by
      have := hfresh b hmem
      omega
    rw [hframe2 b hbnotbs, hframe b hblt]
  · omega

/-- Copy assignment (not self), with enough budget: the receiver afterwards
models the source's sequence; slots outside the receiver's old chain and
below the old heap bound are untouched. -/
theorem assignB_ok_spec {h : Heap α} {a b : SingleLinkedList}
    {asa : List Nat} {vsa : List α} {asb : List Nat} {vsb : List α}
    {budget : Nat}
    (hca : chain h a.head_next asa vsa)
    (hcb : chain h b.head_next asb vsb)
    (hbud : vsb.length ≤ budget) :
    ∃ h2 a2, assignB h a b false budget = some (h2, a2, true) ∧
      models h2 a2 vsb ∧
      (∀ x, x < h.length → x ∉ asa → getNode h2 x = getNode h x) ∧
      h.length ≤ h2.length := by
  rcases copyCtorB_ok_spec hcb hbud with
    ⟨h1, tmp, bs, hcbrun, hmtmp, hframe1, hle1, hchtmp, hfresh⟩
  have hca1 : chain h1 a.head_next asa vsa :=
    chain_frame (fun x hx => hframe1 x (chain_mem_lt hca x hx)) hca
  have hca1q : chain h1
      ({ head_next := a.head_next, size_ := a.size_ } :
        SingleLinkedList).head_next asa vsa := hca1
  rcases Clear_spec hca1q with ⟨h2, hcl, hlen2, hframe2⟩
  have hfrasa : ∀ x, x < h.length → x ∉ asa → getNode h2 x = getNode h x := by
    intro x hxlt hxasa
    rw [hframe2 x hxasa, hframe1 x hxlt]
  refine ⟨h2, tmp, ?_, ?_, hfrasa, by omega⟩
  · rw [assignB]
    simp [hcbrun, swapLists, hcl]
  · rcases hmtmp with ⟨-, -, hsz⟩
    refine ⟨bs, ?_, hsz⟩
    refine chain_frame (fun x hx => hframe2 x ?_) hchtmp
    intro hxasa
    have h1x := hfresh x hx
    have h2x := chain_mem_lt hca x hxasa
    omega

/-- Copy assignment (not self) whose copy construction throws: the receiver
record is returned unchanged and every pre-existing slot is untouched, so
the receiver still models its old sequence. -/
theorem assignB_fail_spec {h : Heap α} {a b : SingleLinkedList}
    {asa : List Nat} {vsa : List α} {asb : List Nat} {vsb : List α}
    {budget : Nat}
    (hca : chain h a.head_next asa vsa) (hsa : a.size_ = vsa.length)
    (hcb : chain h b.head_next asb vsb)
    (hbud : budget < vsb.length) :
    ∃ h2, assignB h a b false budget = some (h2, a, false) ∧
      models h2 a vsa ∧
      (∀ x, x < h.length → getNode h2 x = getNode h x) := by
  rcases copyCtorB_fail_spec hcb hbud with ⟨h2, hrun, hframe, hle⟩
  refine ⟨h2, ?_, ⟨asa, ?_, ?_⟩, hframe⟩
  · rw [assignB]
    simp [hrun]
  · exact chain_frame (fun x hx => hframe x (chain_mem_lt hca x hx)) hca
  · rw [hsa]

/-- Self-assignment (`this == &rhs`) is a no-op: state returned untouched. -/
theorem assignB_self (h : Heap α) (a : SingleLinkedList) (budget : Nat) :
    assignB h a a true budget = some (h, a, true) := rfl

/-- The `std::equal` loop over two modelled chains decides equality of the
value sequences. -/
theorem equalAux_spec [DecidableEq α] {h : Heap α} :
    ∀ (vs ws : List α) (p q : Option Nat) (as bs : List Nat) (fuel : Nat),
    chain h p as vs → chain h q bs ws → vs.length ≤ fuel →
    equalAux h fuel p q = some (decide (vs = ws)) := by
  intro vs
  induction vs with
  | nil =>
    intro ws p q as bs fuel hcv hcw _
    rcases chain_val_nil_inv hcv with ⟨rfl, rfl⟩
    cases ws with
    | nil =>
      rcases chain_val_nil_inv hcw with ⟨rfl, rfl⟩
      cases fuel <;> simp [equalAux]
    | cons w ws2 =>
      rcases chain_val_cons_inv hcw with ⟨b0, m, bs2, rfl, -, -, rfl, -⟩
      cases fuel <;> simp [equalAux]
  | cons v vs2 ih =>
    intro ws p q as bs fuel hcv hcw hfuel
    rcases chain_val_cons_inv hcv with ⟨a0, n, as2, rfl, hga, hv, rfl, hcv2⟩
    cases ws with
    | nil =>
      rcases chain_val_nil_inv hcw with ⟨rfl, rfl⟩
      cases fuel <;> simp [equalAux]
    | cons w ws2 =>
      rcases chain_val_cons_inv hcw with ⟨b0, m, bs2, rfl, hgb, hw, rfl, hcw2⟩
      match fuel with
      | f + 1 =>
        have hrec := ih ws2 n.next_node m.next_node as2 bs2 f hcv2 hcw2
          (by simp at hfuel; omega)
        by_cases hvw : v = w
        · simp [equalAux, hga, hgb, hv, hw, hvw, hrec]
        · simp [equalAux, hga, hgb, hv, hw, hvw]

/-- The `std::lexicographical_compare` loop over two modelled chains
decides the lexicographic strict order of the value sequences. -/
theorem lexAux_spec [LinearOrder α] {h : Heap α} :
    ∀ (vs ws : List α) (p q : Option Nat) (as bs : List Nat) (fuel : Nat),
    chain h p as vs → chain h q bs ws → vs.length ≤ fuel →
    lexAux h fuel p q = some (decide (List.Lex (· < ·) vs ws)) := by
  intro vs
  induction vs with
  | nil =>
    intro ws p q as bs fuel hcv hcw _
    rcases chain_val_nil_inv hcv with ⟨rfl, rfl⟩
    cases ws with
    | nil =>
      rcases chain_val_nil_inv hcw with ⟨rfl, rfl⟩
      have hno : ¬ List.Lex (α := α) (· < ·) [] [] := List.Lex.not_nil_right _ _
      cases fuel <;> simp [lexAux, hno]
    | cons w ws2 =>
      rcases chain_val_cons_inv hcw with ⟨b0, m, bs2, rfl, -, -, rfl, -⟩
      have hyes : List.Lex (α := α) (· < ·) [] (w :: ws2) := List.Lex.nil
      cases fuel <;> simp [lexAux, hyes]
  | cons v vs2 ih =>
    intro ws p q as bs fuel hcv hcw hfuel
    rcases chain_val_cons_inv hcv with ⟨a0, n, as2, rfl, hga, hv, rfl, hcv2⟩
    cases ws with
    | nil =>
      rcases chain_val_nil_inv hcw with ⟨rfl, rfl⟩
      have hno : ¬ List.Lex (· < ·) (v :: vs2) [] := List.Lex.not_nil_right _ _
      cases fuel <;> simp [lexAux, hno]
    | cons w ws2 =>
      rcases chain_val_cons_inv hcw with ⟨b0, m, bs2, rfl, hgb, hw, rfl, hcw2⟩
      match fuel with
      | f + 1 =>
        have hrec := ih ws2 n.next_node m.next_node as2 bs2 f hcv2 hcw2
          (by simp at hfuel; omega)
        rcases lt_trichotomy v w with hvw | hvw | hvw
        · have hyes : List.Lex (· < ·) (v :: vs2) (w :: ws2) :=
            List.Lex.rel hvw
          simp [lexAux, hga, hgb, hv, hw, hvw, not_lt_of_lt hvw, hyes]
        · subst hvw
        
          have hiff : List.Lex (· < ·) (v :: vs2) (v :: ws2) ↔
              List.Lex (· < ·) vs2 ws2 := List.Lex.cons_iff
          simp [lexAux, hga, hgb, hv, hw, lt_irrefl, hrec,
            decide_eq_decide.mpr hiff]
        · have hno : ¬ List.Lex (· < ·) (v :: vs2) (w :: ws2) := by
            intro hlex
            cases hlex with
            | cons h2 => exact lt_irrefl _ hvw
            | rel h2 => exact lt_asymm hvw h2
          simp [lexAux, hga, hgb, hv, hw, hvw, not_lt_of_lt hvw, hno]

/-- Every reachable list state satisfies the representation invariant:
its chain is finite, null-terminated, and `size_` counts its values. -/
theorem Reachable_inv {h : Heap α} {l : SingleLinkedList}
    (hr : Reachable h l) : InvL h l := by
  induction hr with
  | empty h => exact ⟨[], [], chain.nil, rfl⟩
  | literal vs hmk =>
    rcases mkFromList_spec _ vs with ⟨h2, l2, bs, hrun, hm, -, -, -, -⟩
    rw [hmk] at hrun
    obtain ⟨rfl, rfl⟩ := by simpa using hrun.symm
    exact ⟨vs, hm⟩
  | push v _ heq ih =>
    rcases ih with ⟨vs, hm⟩
    have := PushFront_models v hm
    rw [heq] at this
    exact ⟨_, this⟩
  | insert v _ honl heq ih =>
    rcases ih with ⟨vs, hm⟩
    rcases honl with rfl | ⟨as0, vs0, c, hch0, rfl, hcmem⟩
    · rcases InsertAfter_sentinel_spec v hm with ⟨h2, l2, hrun, hm2, -, -⟩
      rw [hrun] at heq
      obtain ⟨rfl, rfl, rfl⟩ := by simpa using heq
      exact ⟨_, hm2⟩
    · rcases hm with ⟨as1, hc1, hs1⟩
      rcases chain_det hch0 hc1 with ⟨rfl, rfl⟩
      rcases chain_decompose hc1 hcmem with
        ⟨asl, vsl, n, asr, vsr, -, rfl, hseg, hgc, hctail⟩
      rcases InsertAfter_node_spec v hseg hgc hctail hs1 with
        ⟨h2, hrun, -, -, -, -, hm2⟩
      rw [hrun] at heq
      obtain ⟨rfl, rfl, rfl⟩ := by simpa using heq
      exact ⟨_, hm2⟩
  | pop _ heq ih =>
    rcases ih with ⟨vs, hm⟩
    cases vs with
    | nil =>
      rcases hm with ⟨as, hc, -⟩
      rcases chain_val_nil_inv hc with ⟨hhd, -⟩
      rw [PopFront, hhd] at heq
      cases heq
    | cons v vs2 =>
      rcases PopFront_models hm with ⟨h2, l2, hrun, hm2⟩
      rw [hrun] at heq
      obtain ⟨rfl, rfl⟩ := by simpa using heq
      exact ⟨_, hm2⟩
  | erase _ honl heq ih =>
    rcases ih with ⟨vs, hm⟩
    rcases honl with rfl | ⟨as0, vs0, c, hch0, rfl, hcmem⟩
    · cases vs with
      | nil =>
        rcases hm with ⟨as, hc, -⟩
        rcases chain_val_nil_inv hc with ⟨hhd, -⟩
        rw [EraseAfter, readNext, hhd] at heq
        cases heq
      | cons v vs2 =>
        rcases EraseAfter_sentinel_spec hm with ⟨h2, l2, it2, hrun, hm2, -⟩
        rw [hrun] at heq
        obtain ⟨rfl, rfl, rfl⟩ := by simpa using heq
        exact ⟨_, hm2⟩
    · rcases hm with ⟨as1, hc1, hs1⟩
      rcases chain_det hch0 hc1 with ⟨rfl, rfl⟩
      rcases chain_decompose hc1 hcmem with
        ⟨asl, vsl, n, asr, vsr, -, rfl, hseg, hgc, hctail⟩
      cases hnx : n.next_node with
      | none =>
        rw [EraseAfter, readNext, hgc] at heq
        simp [hnx] at heq
      | some d =>
        rw [hnx] at hctail
        rcases chain_some_inv hctail with ⟨m, asr2, vsr2, hgd, rfl, rfl, hcm⟩
        rcases EraseAfter_node_spec hseg hgc hnx hgd hcm hs1 with
          ⟨h2, hrun, hm2⟩
        rw [hrun] at heq
        obtain ⟨rfl, rfl, rfl⟩ := by simpa using heq
        exact ⟨_, hm2⟩
  | clearStep _ heq ih =>
    rcases ih with ⟨vs, as, hc, -⟩
    rcases Clear_spec hc with ⟨h2, hrun, -, -⟩
    rw [hrun] at heq
    obtain ⟨rfl, rfl⟩ := by simpa using heq
    exact ⟨[], [], chain.nil, rfl⟩
  | swapped _ _ iha ihb =>
    rcases ihb with ⟨vs, as, hc, hs⟩
    exact ⟨vs, as, hc, hs⟩
  | copy budget _ heq ih =>
    rcases ih with ⟨vs, as, hc, hs⟩
    by_cases hbud : vs.length ≤ budget
    · rcases copyCtorB_ok_spec hc hbud with ⟨h2, l2, bs, hrun, hm2, -, -, -, -⟩
      rw [hrun] at heq
      obtain ⟨rfl, rfl⟩ := by simpa using heq
      exact ⟨_, hm2⟩
    · rcases copyCtorB_fail_spec hc (not_le.mp hbud) with ⟨h2, hrun, -, -⟩
      rw [hrun] at heq
      simp at heq
  | assignStep same budget _ _ heq iha ihb =>
    cases same with
    | true =>
      simp [assignB] at heq
      obtain ⟨rfl, rfl, rfl⟩ := heq
      exact iha
    | false =>
      rcases iha with ⟨vsa, asa, hca, hsa⟩
      rcases ihb with ⟨vsb, asb, hcb, hsb⟩
      by_cases hbud : vsb.length ≤ budget
      · rcases assignB_ok_spec hca hcb hbud with ⟨h2, a2, hrun, hm2, -, -⟩
        rw [hrun] at heq
        obtain ⟨rfl, rfl, rfl⟩ := by simpa using heq
        exact ⟨_, hm2⟩
      · rcases assignB_fail_spec hca hsa hcb (not_le.mp hbud) with
          ⟨h2, hrun, hm2, -⟩
        rw [hrun] at heq
        obtain ⟨rfl, rfl, rfl⟩ := by simpa using heq
        exact ⟨_, hm2⟩

/-- Fact: `InsertAfter` with a succeeding allocation is exactly `InsertAfter`. -/
theorem InsertAfterAlloc_true (h : Heap α) (l : SingleLinkedList) (pos : Ptr)
    (v : α) :
    InsertAfterAlloc h l pos v true =
      (InsertAfter h l pos v).map fun r => ((r.1, r.2.1), Except.ok r.2.2) := by
  rw [InsertAfterAlloc, InsertAfter]
  cases readNext h l pos <;> rfl

/-- Fact: `InsertAfter` whose allocation throws leaves the entry state untouched
(for any pointer the source could dereference at all). -/
theorem InsertAfterAlloc_false {h : Heap α} {l : SingleLinkedList} {pos : Ptr}
    {nxt : Option Nat} (hrd : readNext h l pos = some nxt) (v : α) :
    InsertAfterAlloc h l pos v false = some ((h, l), Except.error ()) := by
  rw [InsertAfterAlloc, hrd]
  rfl

/-- C1: constructing a `SingleLinkedList` from a value sequence V — via the
initializer-list constructor or via `Init` over a range on a fresh list —
and then iterating with `begin()`/`end()`, pre-increment and dereference,
yields exactly V in order, and `GetSize()` equals V's length. -/
theorem claim_C1 (vs : List α) (h : Heap α) :
    (toList (mkFromList h vs).1 (mkFromList h vs).2 = some vs ∧
      GetSize (mkFromList h vs).2 = vs.length) ∧
    (toList (Init h emptyList vs).1 (Init h emptyList vs).2 = some vs ∧
      GetSize (Init h emptyList vs).2 = vs.length) := by
  constructor
  · rcases mkFromList_spec h vs with ⟨h2, l2, bs, hrun, hm, -, -, -, -⟩
    rw [hrun]
    exact models_toList hm
  · rcases Init_spec vs h emptyList rfl with ⟨h2, l2, bs, hrun, -, -, hsz, hch, -⟩
    rw [hrun]
    exact models_toList ⟨bs, hch, by simpa [emptyList] using hsz⟩

/-- C2: in every list state reachable by non-failing public operations,
the stored `size_` equals the number of nodes reachable from the
sentinel's next link, the chain is acyclic (no address repeats) and
finite, and the last node's next link is null — all of which the `chain`
predicate asserts of the witnessing address list. -/
theorem claim_C2 {h : Heap α} {l : SingleLinkedList} (hr : Reachable h l) :
    ∃ as vs, chain h l.head_next as vs ∧ as.Nodup ∧ l.size_ = as.length := by
  rcases Reachable_inv hr with ⟨vs, as, hc, hs⟩
  exact ⟨as, vs, hc, chain_nodup hc, by rw [hs, chain_length_eq hc]⟩

/-- Witness for C2: the invariant holds of the state built by pushing `5`
onto a default-constructed list in the empty heap. -/
theorem claim_C2_witness :
    ∃ as vs, chain (PushFront ([] : Heap Nat) emptyList 5).1
        (PushFront ([] : Heap Nat) emptyList 5).2.head_next as vs ∧
      as.Nodup ∧ (PushFront ([] : Heap Nat) emptyList 5).2.size_ = as.length :=
  claim_C2 (Reachable.push 5 (Reachable.empty []) rfl)

/-- C3: `==` is reflexive, decides exactly equality of the element
sequences (equal length and elementwise equal values), and `!=` is its
boolean negation. -/
theorem claim_C3 [DecidableEq α] {h : Heap α} {l1 l2 : SingleLinkedList}
    {vs ws : List α} (hm1 : models h l1 vs) (hm2 : models h l2 ws) :
    eqOp h l1 l1 = some true ∧
    eqOp h l1 l2 = some (decide (vs = ws)) ∧
    (eqOp h l1 l2 = some true ↔ vs = ws) ∧
    neOp h l1 l2 = some (!(decide (vs = ws))) ∧
    (neOp h l1 l2 = some true ↔ ¬ vs = ws) := by
  rcases hm1 with ⟨as, hc1, -⟩
  rcases hm2 with ⟨bs, hc2, -⟩
  have hf1 : vs.length ≤ h.length + 1 := by
    have := chain_length_le hc1
    have := chain_length_eq hc1
    omega
  have heq12 : eqOp h l1 l2 = some (decide (vs = ws)) :=
    equalAux_spec vs ws _ _ as bs (h.length + 1) hc1 hc2 hf1
  refine ⟨?_, heq12, ?_, ?_, ?_⟩
  · have := equalAux_spec vs vs _ _ as as (h.length + 1) hc1 hc1 hf1
    simpa using this
  · rw [heq12]
    simp
  · rw [neOp, heq12]
    rfl
  · rw [neOp, heq12]
    simp

/-- Witness for C3 on the concrete heap holding [1,2] and [1,3]. -/
theorem claim_C3_witness :
    eqOp [some ⟨1, some 1⟩, some ⟨2, none⟩, some ⟨1, some 3⟩,
        some (⟨3, none⟩ : Node Nat)]
      ⟨some 0, 2⟩ ⟨some 0, 2⟩ = some true ∧
    eqOp [some ⟨1, some 1⟩, some ⟨2, none⟩, some ⟨1, some 3⟩,
        some (⟨3, none⟩ : Node Nat)]
      ⟨some 0, 2⟩ ⟨some 2, 2⟩ = some (decide ([1, 2] = [1, 3])) ∧
    (eqOp [some ⟨1, some 1⟩, some ⟨2, none⟩, some ⟨1, some 3⟩,
        some (⟨3, none⟩ : Node Nat)]
      ⟨some 0, 2⟩ ⟨some 2, 2⟩ = some true ↔ [1, 2] = [1, 3]) ∧
    neOp [some ⟨1, some 1⟩, some ⟨2, none⟩, some ⟨1, some 3⟩,
        some (⟨3, none⟩ : Node Nat)]
      ⟨some 0, 2⟩ ⟨some 2, 2⟩ = some (!(decide ([1, 2] = [1, 3]))) ∧
    (neOp [some ⟨1, some 1⟩, some ⟨2, none⟩, some ⟨1, some 3⟩,
        some (⟨3, none⟩ : Node Nat)]
      ⟨some 0, 2⟩ ⟨some 2, 2⟩ = some true ↔ ¬ [1, 2] = [1, 3]) :=
  claim_C3
    ⟨[0, 1], chain.cons (n := ⟨1, some 1⟩) rfl
      (chain.cons (n := ⟨2, none⟩) rfl chain.nil), rfl⟩
    ⟨[2, 3], chain.cons (n := ⟨1, some 3⟩) rfl
      (chain.cons (n := ⟨3, none⟩) rfl chain.nil), rfl⟩

/-- C4: `<` decides exactly the lexicographic strict order of the element
sequences; it is asymmetric (antisymmetry of a strict order) and
transitive; and `>`, `<=`, `>=` are the derived comparisons
`rhs < lhs`, `!(rhs < lhs)` and `!(lhs < rhs)`. -/
theorem claim_C4 [LinearOrder α] {h : Heap α} {l1 l2 l3 : SingleLinkedList}
    {vs ws xs : List α} (hm1 : models h l1 vs) (hm2 : models h l2 ws)
    (hm3 : models h l3 xs) :
    ltOp h l1 l2 = some (decide (List.Lex (· < ·) vs ws)) ∧
    (ltOp h l1 l2 = some true → ltOp h l2 l1 = some false) ∧
    (ltOp h l1 l2 = some true → ltOp h l2 l3 = some true →
      ltOp h l1 l3 = some true) ∧
    gtOp h l1 l2 = some (decide (List.Lex (· < ·) ws vs)) ∧
    leOp h l1 l2 = some (!(decide (List.Lex (· < ·) ws vs))) ∧
    geOp h l1 l2 = some (!(decide (List.Lex (· < ·) vs ws))) := by
  rcases hm1 with ⟨as, hc1, -⟩
  rcases hm2 with ⟨bs, hc2, -⟩
  rcases hm3 with ⟨cs, hc3, -⟩
  have hf1 : vs.length ≤ h.length + 1 := by
    have := chain_length_le hc1
    have := chain_length_eq hc1
    omega
  have hf2 : ws.length ≤ h.length + 1 := by
    have := chain_length_le hc2
    have := chain_length_eq hc2
    omega
  have h12 : ltOp h l1 l2 = some (decide (List.Lex (· < ·) vs ws)) :=
    lexAux_spec vs ws _ _ as bs (h.length + 1) hc1 hc2 hf1
  have h21 : ltOp h l2 l1 = some (decide (List.Lex (· < ·) ws vs)) :=
    lexAux_spec ws vs _ _ bs as (h.length + 1) hc2 hc1 hf2
  have h23 : ltOp h l2 l3 = some (decide (List.Lex (· < ·) ws xs)) :=
    lexAux_spec ws xs _ _ bs cs (h.length + 1) hc2 hc3 hf2
  have h13 : ltOp h l1 l3 = some (decide (List.Lex (· < ·) vs xs)) :=
    lexAux_spec vs xs _ _ as cs (h.length + 1) hc1 hc3 hf1
  refine ⟨h12, ?_, ?_, h21, ?_, ?_⟩
  · intro htrue
    rw [h12] at htrue
    have hlex : List.Lex (· < ·) vs ws := by simpa using htrue
    rw [h21, decide_eq_false (IsAsymm.asymm _ _ hlex)]
  · intro htrue1 htrue2
    rw [h12] at htrue1
    rw [h23] at htrue2
    have hlex1 : List.Lex (· < ·) vs ws := by simpa using htrue1
    have hlex2 : List.Lex (· < ·) ws xs := by simpa using htrue2
    rw [h13, decide_eq_true (IsTrans.trans _ _ _ hlex1 hlex2)]
  · rw [leOp, h21]
    rfl
  · rw [geOp, h12]
    rfl

/-- Witness for C4 on the concrete heap holding [1,2], [1,3] and []. -/
theorem claim_C4_witness :
    ltOp [some ⟨1, some 1⟩, some ⟨2, none⟩, some ⟨1, some 3⟩,
        some (⟨3, none⟩ : Node Nat)] ⟨some 0, 2⟩ ⟨some 2, 2⟩ =
      some (decide (List.Lex (· < ·) [1, 2] [1, 3])) ∧
    (ltOp [some ⟨1, some 1⟩, some ⟨2, none⟩, some ⟨1, some 3⟩,
        some (⟨3, none⟩ : Node Nat)] ⟨some 0, 2⟩ ⟨some 2, 2⟩ = some true →
      ltOp [some ⟨1, some 1⟩, some ⟨2, none⟩, some ⟨1, some 3⟩,
        some (⟨3, none⟩ : Node Nat)] ⟨some 2, 2⟩ ⟨some 0, 2⟩ = some false) ∧
    (ltOp [some ⟨1, some 1⟩, some ⟨2, none⟩, some ⟨1, some 3⟩,
        some (⟨3, none⟩ : Node Nat)] ⟨some 0, 2⟩ ⟨some 2, 2⟩ = some true →
      ltOp [some ⟨1, some 1⟩, some ⟨2, none⟩, some ⟨1, some 3⟩,
        some (⟨3, none⟩ : Node Nat)] ⟨some 2, 2⟩ ⟨none, 0⟩ = some true →
      ltOp [some ⟨1, some 1⟩, some ⟨2, none⟩, some ⟨1, some 3⟩,
        some (⟨3, none⟩ : Node Nat)] ⟨some 0, 2⟩ ⟨none, 0⟩ = some true) ∧
    gtOp [some ⟨1, some 1⟩, some ⟨2, none⟩, some ⟨1, some 3⟩,
        some (⟨3, none⟩ : Node Nat)] ⟨some 0, 2⟩ ⟨some 2, 2⟩ =
      some (decide (List.Lex (· < ·) [1, 3] [1, 2])) ∧
    leOp [some ⟨1, some 1⟩, some ⟨2, none⟩, some ⟨1, some 3⟩,
        some (⟨3, none⟩ : Node Nat)] ⟨some 0, 2⟩ ⟨some 2, 2⟩ =
      some (!(decide (List.Lex (· < ·) [1, 3] [1, 2]))) ∧
    geOp [some ⟨1, some 1⟩, some ⟨2, none⟩, some ⟨1, some 3⟩,
        some (⟨3, none⟩ : Node Nat)] ⟨some 0, 2⟩ ⟨some 2, 2⟩ =
      some (!(decide (List.Lex (· < ·) [1, 2] [1, 3]))) :=
  claim_C4
    ⟨[0, 1], chain.cons (n := ⟨1, some 1⟩) rfl
      (chain.cons (n := ⟨2, none⟩) rfl chain.nil), rfl⟩
    ⟨[2, 3], chain.cons (n := ⟨1, some 3⟩) rfl
      (chain.cons (n := ⟨3, none⟩) rfl chain.nil), rfl⟩
    ⟨[], chain.nil, rfl⟩

/-- C5: for a list modelling `vs` and a valid position (`before_begin` or
a real node of the list), `InsertAfter(pos, v)` followed by
`EraseAfter(pos)` restores exactly the original element sequence and
size. -/
theorem claim_C5 {h : Heap α} {l : SingleLinkedList} {vs : List α}
    {pos : Ptr} (hm : models h l vs) (hpos : onList h l pos) (v : α) :
    ∃ h2 l2 it h3 l3 it2,
      InsertAfter h l pos v = some (h2, l2, it) ∧
      EraseAfter h2 l2 pos = some (h3, l3, it2) ∧
      models h3 l3 vs ∧ GetSize l3 = GetSize l ∧
      toList h3 l3 = toList h l := by
  have htl := models_toList hm
  rcases hpos with rfl | ⟨as0, vs0, c, hch0, rfl, hcmem⟩
  · rcases InsertAfter_sentinel_spec v hm with ⟨h2, l2, hrun1, hm2, hsz2, -⟩
    rcases EraseAfter_sentinel_spec hm2 with ⟨h3, l3, it2, hrun2, hm3, hsz3⟩
    refine ⟨h2, l2, Ptr.node h.length, h3, l3, it2, hrun1, hrun2, hm3, ?_, ?_⟩
    · show l3.size_ = l.size_
      rcases hm3 with ⟨-, -, hs3⟩
      rcases hm with ⟨-, -, hs⟩
      omega
    · rw [(models_toList hm3).1, htl.1]
  · rcases hm with ⟨as1, hc1, hs1⟩
    rcases chain_det hch0 hc1 with ⟨rfl, rfl⟩
    rcases chain_decompose hc1 hcmem with
      ⟨asl, vsl, n, asr, vsr, -, rfl, hseg, hgc, hctail⟩
    rcases InsertAfter_node_spec v hseg hgc hctail hs1 with
      ⟨h2, hrun1, hgnew, hgc2, hseg2, hctail2, hm2⟩
    have hs2 : ({ l with size_ := l.size_ + 1 } : SingleLinkedList).size_ =
        (vsl ++ ({ n with next_node := some h.length } : Node α).value ::
          (⟨v, n.next_node⟩ : Node α).value :: vsr).length := by
      simp at hs1 ⊢
      omega
    rcases EraseAfter_node_spec (l := { l with size_ := l.size_ + 1 })
      hseg2 hgc2 rfl hgnew hctail2 hs2 with ⟨h3, hrun2, hm3⟩
    refine ⟨h2, { l with size_ := l.size_ + 1 }, Ptr.node h.length, h3,
      { l with size_ := l.size_ } , n.next_node.map Ptr.node, hrun1, ?_, ?_, rfl, ?_⟩
    · simpa using hrun2
    · simpa using hm3
    · have hm3' : models h3 ({ l with size_ := l.size_ } : SingleLinkedList)
          (vsl ++ n.value :: vsr) := by simpa using hm3
      rw [(models_toList hm3').1, htl.1]

/-- Witness for C5: insert 5 at `before_begin` of the empty list in the
empty heap, then erase after `before_begin`. -/
theorem claim_C5_witness :
    ∃ h2 l2 it h3 l3 it2,
      InsertAfter ([] : Heap Nat) emptyList Ptr.sentinel 5 =
        some (h2, l2, it) ∧
      EraseAfter h2 l2 Ptr.sentinel = some (h3, l3, it2) ∧
      models h3 l3 [] ∧ GetSize l3 = GetSize emptyList ∧
      toList h3 l3 = toList ([] : Heap Nat) emptyList :=
  claim_C5 ⟨[], chain.nil, rfl⟩ (Or.inl rfl) 5

/-- C6: `InsertAfter` at a valid position splices one fresh node holding
the value immediately after the referenced node, returns an iterator
referencing that new node, and increments the size by one; when the node
allocation throws instead, the heap and the list are exactly the entry
state, because the node is fully constructed before the splice pointer is
written. -/
theorem claim_C6 {h : Heap α} {l : SingleLinkedList} {vs : List α}
    {pos : Ptr} (hm : models h l vs) (hpos : onList h l pos) (v : α) :
    ∃ h2 l2 newA,
      InsertAfter h l pos v = some (h2, l2, Ptr.node newA) ∧
      readNext h2 l2 pos = some (some newA) ∧
      (∃ nn, getNode h2 newA = some nn ∧ nn.value = v) ∧
      GetSize l2 = GetSize l + 1 ∧
      (∃ vs1 vs2, vs = vs1 ++ vs2 ∧ models h2 l2 (vs1 ++ v :: vs2)) ∧
      InsertAfterAlloc h l pos v true =
        some ((h2, l2), Except.ok (Ptr.node newA)) ∧
      InsertAfterAlloc h l pos v false = some ((h, l), Except.error ()) := by
  rcases hpos with rfl | ⟨as0, vs0, c, hch0, rfl, hcmem⟩
  · rcases InsertAfter_sentinel_spec v hm with ⟨h2, l2, hrun, hm2, hsz2, -⟩
    have hcomp : InsertAfter h l Ptr.sentinel v =
        some (h ++ [some ⟨v, l.head_next⟩],
          { head_next := some h.length, size_ := l.size_ + 1 },
          Ptr.node h.length) := rfl
    rw [hcomp] at hrun
    obtain ⟨rfl, rfl, -⟩ := by simpa using hrun
    refine ⟨_, _, h.length, hcomp, rfl, ⟨⟨v, l.head_next⟩,
      getNode_append_self, rfl⟩, rfl, ⟨[], vs, rfl, hm2⟩, ?_, ?_⟩
    · rw [InsertAfterAlloc_true, hcomp]
      rfl
    · exact @InsertAfterAlloc_false α h l Ptr.sentinel l.head_next rfl v
  · rcases hm with ⟨as1, hc1, hs1⟩
    rcases chain_det hch0 hc1 with ⟨rfl, rfl⟩
    rcases chain_decompose hc1 hcmem with
      ⟨asl, vsl, n, asr, vsr, -, rfl, hseg, hgc, hctail⟩
    rcases InsertAfter_node_spec v hseg hgc hctail hs1 with
      ⟨h2, hrun, hgnew, hgc2, -, -, hm2⟩
    refine ⟨h2, { l with size_ := l.size_ + 1 }, h.length, hrun, ?_,
      ⟨⟨v, n.next_node⟩, hgnew, rfl⟩, rfl,
      ⟨vsl ++ [n.value], vsr, by simp, by simpa using hm2⟩, ?_, ?_⟩
    · rw [readNext, hgc2]
      rfl
    · rw [InsertAfterAlloc_true, hrun]
      rfl
    · exact InsertAfterAlloc_false (by rw [readNext, hgc]; rfl) v

/-- Witness for C6: insert 7 at `before_begin` of the empty list in the
empty heap. -/
theorem claim_C6_witness :
    ∃ h2 l2 newA,
      InsertAfter ([] : Heap Nat) emptyList Ptr.sentinel 7 =
        some (h2, l2, Ptr.node newA) ∧
      readNext h2 l2 Ptr.sentinel = some (some newA) ∧
      (∃ nn, getNode h2 newA = some nn ∧ nn.value = 7) ∧
      GetSize l2 = GetSize emptyList + 1 ∧
      (∃ vs1 vs2, ([] : List Nat) = vs1 ++ vs2 ∧
        models h2 l2 (vs1 ++ 7 :: vs2)) ∧
      InsertAfterAlloc ([] : Heap Nat) emptyList Ptr.sentinel 7 true =
        some ((h2, l2), Except.ok (Ptr.node newA)) ∧
      InsertAfterAlloc ([] : Heap Nat) emptyList Ptr.sentinel 7 false =
        some (([], emptyList), Except.error ()) :=
  claim_C6 ⟨[], chain.nil, rfl⟩ (Or.inl rfl) 7

/-- C7: copy assignment makes the receiver equal in value to the source
(the source itself unharmed); self-assignment, detected by the identity
test, changes nothing at all; and when building the copy throws, the
receiver still holds exactly its original sequence and size, the copy
having been built into a temporary. -/
theorem claim_C7 [DecidableEq α] {h : Heap α} {a b : SingleLinkedList}
    {asa : List Nat} {vsa : List α} {asb : List Nat} {vsb : List α}
    {budget : Nat}
    (hca : chain h a.head_next asa vsa) (hsa : a.size_ = vsa.length)
    (hcb : chain h b.head_next asb vsb) (hsb : b.size_ = vsb.length)
    (hdisj : ∀ x ∈ asb, x ∉ asa) :
    (vsb.length ≤ budget →
      ∃ h2 a2, assignB h a b false budget = some (h2, a2, true) ∧
        models h2 a2 vsb ∧ models h2 b vsb ∧ eqOp h2 a2 b = some true) ∧
    (∀ bud2, assignB h a a true bud2 = some (h, a, true)) ∧
    (budget < vsb.length →
      ∃ h2, assignB h a b false budget = some (h2, a, false) ∧
        models h2 a vsa ∧ toList h2 a = toList h a) := by
  refine ⟨?_, fun bud2 => assignB_self h a bud2, ?_⟩
  · intro hbud
    rcases assignB_ok_spec hca hcb hbud with ⟨h2, a2, hrun, hm2, hframe, hle⟩
    have hcb2 : chain h2 b.head_next asb vsb := by
      refine chain_frame (fun x hx => ?_) hcb
      exact hframe x (chain_mem_lt hcb x hx) (hdisj x hx)
    refine ⟨h2, a2, hrun, hm2, ⟨asb, hcb2, hsb⟩, ?_⟩
    rcases hm2 with ⟨bs2, hch2, -⟩
    have hf : vsb.length ≤ h2.length + 1 := by
      have := chain_length_le hch2
      have := chain_length_eq hch2
      omega
    have := equalAux_spec vsb vsb _ _ bs2 asb (h2.length + 1) hch2 hcb2 hf
    simpa [eqOp] using this
  · intro hbud
    rcases assignB_fail_spec hca hsa hcb hbud with ⟨h2, hrun, hm2, -⟩
    refine ⟨h2, hrun, hm2, ?_⟩
    rw [(models_toList hm2).1, (models_toList ⟨asa, hca, hsa⟩).1]

/-- Witness for C7 on the concrete heap holding [1,2] (receiver) and
[1,3] (source), budget 2. -/
theorem claim_C7_witness :
    ((2 : Nat) ≤ 2 →
      ∃ h2 a2, assignB [some ⟨1, some 1⟩, some ⟨2, none⟩, some ⟨1, some 3⟩,
          some (⟨3, none⟩ : Node Nat)] ⟨some 0, 2⟩ ⟨some 2, 2⟩ false 2 =
        some (h2, a2, true) ∧
        models h2 a2 [1, 3] ∧ models h2 ⟨some 2, 2⟩ [1, 3] ∧
        eqOp h2 a2 ⟨some 2, 2⟩ = some true) ∧
    (∀ bud2, assignB [some ⟨1, some 1⟩, some ⟨2, none⟩, some ⟨1, some 3⟩,
        some (⟨3, none⟩ : Node Nat)] ⟨some 0, 2⟩ ⟨some 0, 2⟩ true bud2 =
      some ([some ⟨1, some 1⟩, some ⟨2, none⟩, some ⟨1, some 3⟩,
        some (⟨3, none⟩ : Node Nat)], ⟨some 0, 2⟩, true)) ∧
    ((2 : Nat) < 2 →
      ∃ h2, assignB [some ⟨1, some 1⟩, some ⟨2, none⟩, some ⟨1, some 3⟩,
          some (⟨3, none⟩ : Node Nat)] ⟨some 0, 2⟩ ⟨some 2, 2⟩ false 2 =
        some (h2, ⟨some 0, 2⟩, false) ∧
        models h2 ⟨some 0, 2⟩ [1, 2] ∧
        toList h2 ⟨some 0, 2⟩ =
          toList [some ⟨1, some 1⟩, some ⟨2, none⟩, some ⟨1, some 3⟩,
            some (⟨3, none⟩ : Node Nat)] ⟨some 0, 2⟩) :=
  @claim_C7 Nat _
    [some ⟨1, some 1⟩, some ⟨2, none⟩, some ⟨1, some 3⟩, some ⟨3, none⟩]
    ⟨some 0, 2⟩ ⟨some 2, 2⟩ [0, 1] [1, 2] [2, 3] [1, 3] 2
    (chain.cons (n := ⟨1, some 1⟩) rfl
      (chain.cons (n := ⟨2, none⟩) rfl chain.nil)) rfl
    (chain.cons (n := ⟨1, some 3⟩) rfl
      (chain.cons (n := ⟨3, none⟩) rfl chain.nil)) rfl
    (by decide)

/-- C8: `swap` (member and free) exchanges exactly the two head links and
sizes: afterwards each list holds the other's prior sequence and size, no
heap cell changes, and swapping twice restores the original pair. -/
theorem claim_C8 {h : Heap α} {a b : SingleLinkedList} {va vb : List α}
    (hma : models h a va) (hmb : models h b vb) :
    models h (swapLists a b).1 vb ∧ models h (swapLists a b).2 va ∧
    GetSize (swapLists a b).1 = GetSize b ∧
    GetSize (swapLists a b).2 = GetSize a ∧
    toList h (swapLists a b).1 = toList h b ∧
    toList h (swapLists a b).2 = toList h a ∧
    swapFree a b = swapLists a b ∧
    swapLists (swapLists a b).1 (swapLists a b).2 = (a, b) := by
  rcases hma with ⟨as, hca, hsa⟩
  rcases hmb with ⟨bs, hcb, hsb⟩
  exact ⟨⟨bs, hcb, hsb⟩, ⟨as, hca, hsa⟩, rfl, rfl, rfl, rfl, rfl, rfl⟩

/-- Witness for C8 on the concrete heap holding [1,2] and [1,3]. -/
theorem claim_C8_witness :
    models [some ⟨1, some 1⟩, some ⟨2, none⟩, some ⟨1, some 3⟩,
        some (⟨3, none⟩ : Node Nat)]
      (swapLists ⟨some 0, 2⟩ ⟨some 2, 2⟩).1 [1, 3] ∧
    models [some ⟨1, some 1⟩, some ⟨2, none⟩, some ⟨1, some 3⟩,
        some (⟨3, none⟩ : Node Nat)]
      (swapLists ⟨some 0, 2⟩ ⟨some 2, 2⟩).2 [1, 2] ∧
    GetSize (swapLists (⟨some 0, 2⟩ : SingleLinkedList) ⟨some 2, 2⟩).1 =
      GetSize ⟨some 2, 2⟩ ∧
    GetSize (swapLists (⟨some 0, 2⟩ : SingleLinkedList) ⟨some 2, 2⟩).2 =
      GetSize ⟨some 0, 2⟩ ∧
    toList [some ⟨1, some 1⟩, some ⟨2, none⟩, some ⟨1, some 3⟩,
        some (⟨3, none⟩ : Node Nat)]
      (swapLists ⟨some 0, 2⟩ ⟨some 2, 2⟩).1 =
      toList [some ⟨1, some 1⟩, some ⟨2, none⟩, some ⟨1, some 3⟩,
        some (⟨3, none⟩ : Node Nat)] ⟨some 2, 2⟩ ∧
    toList [some ⟨1, some 1⟩, some ⟨2, none⟩, some ⟨1, some 3⟩,
        some (⟨3, none⟩ : Node Nat)]
      (swapLists ⟨some 0, 2⟩ ⟨some 2, 2⟩).2 =
      toList [some ⟨1, some 1⟩, some ⟨2, none⟩, some ⟨1, some 3⟩,
        some (⟨3, none⟩ : Node Nat)] ⟨some 0, 2⟩ ∧
    swapFree (⟨some 0, 2⟩ : SingleLinkedList) ⟨some 2, 2⟩ =
      swapLists ⟨some 0, 2⟩ ⟨some 2, 2⟩ ∧
    swapLists (swapLists (⟨some 0, 2⟩ : SingleLinkedList) ⟨some 2, 2⟩).1
        (swapLists (⟨some 0, 2⟩ : SingleLinkedList) ⟨some 2, 2⟩).2 =
      (⟨some 0, 2⟩, ⟨some 2, 2⟩) :=
  claim_C8
    ⟨[0, 1], chain.cons (n := ⟨1, some 1⟩) rfl
      (chain.cons (n := ⟨2, none⟩) rfl chain.nil), rfl⟩
    ⟨[2, 3], chain.cons (n := ⟨1, some 3⟩) rfl
      (chain.cons (n := ⟨3, none⟩) rfl chain.nil), rfl⟩

/-- C9: `operator->` returns the null pointer exactly when the iterator
references no node (default-constructed iterator, `end()`), and otherwise
a pointer through which the referenced node's value is read. -/
theorem claim_C9 {h : Heap α} (it : BasicIterator) :
    opArrow (none : BasicIterator) = none ∧
    opArrow endIter = none ∧
    (∀ p : Ptr, opArrow (some p) = some p) ∧
    (∀ (a : Nat) (n : Node α), getNode h a = some n →
      readValuePtr h (opArrow (some (Ptr.node a))) = some n.value) ∧
    (opArrow it = none ↔ it = none) := by
  refine ⟨rfl, rfl, fun p => rfl, fun a n hg => ?_, ?_⟩
  · show readValuePtr h (some (Ptr.node a)) = some n.value
    rw [readValuePtr, hg]
    rfl
  · cases it <;> simp [opArrow]

/-- Witness for C9 on a one-node heap holding the value 7. -/
theorem claim_C9_witness :
    opArrow (none : BasicIterator) = none ∧
    opArrow endIter = none ∧
    (∀ p : Ptr, opArrow (some p) = some p) ∧
    (∀ (a : Nat) (n : Node Nat),
      getNode [some ⟨7, none⟩] a = some n →
      readValuePtr [some ⟨7, none⟩] (opArrow (some (Ptr.node a))) =
        some n.value) ∧
    (opArrow (some (Ptr.node 0)) = none ↔ some (Ptr.node 0) = none) :=
  claim_C9 (some (Ptr.node 0))

/-- C10: self-swap is a no-op: the member and free `swap` of a list with
itself return the list unchanged, preserving its sequence and size. -/
theorem claim_C10 {h : Heap α} {a : SingleLinkedList} {va : List α}
    (hma : models h a va) :
    swapLists a a = (a, a) ∧ swapFree a a = (a, a) ∧
    models h (swapLists a a).1 va ∧ models h (swapLists a a).2 va ∧
    GetSize (swapLists a a).1 = GetSize a ∧
    toList h (swapLists a a).1 = toList h a := by
  exact ⟨rfl, rfl, hma, hma, rfl, rfl⟩

/-- Witness for C10 on the concrete list [1,2]. -/
theorem claim_C10_witness :
    swapLists (⟨some 0, 2⟩ : SingleLinkedList) ⟨some 0, 2⟩ =
      (⟨some 0, 2⟩, ⟨some 0, 2⟩) ∧
    swapFree (⟨some 0, 2⟩ : SingleLinkedList) ⟨some 0, 2⟩ =
      (⟨some 0, 2⟩, ⟨some 0, 2⟩) ∧
    models [some ⟨1, some 1⟩, some (⟨2, none⟩ : Node Nat)]
      (swapLists ⟨some 0, 2⟩ ⟨some 0, 2⟩).1 [1, 2] ∧
    models [some ⟨1, some 1⟩, some (⟨2, none⟩ : Node Nat)]
      (swapLists ⟨some 0, 2⟩ ⟨some 0, 2⟩).2 [1, 2] ∧
    GetSize (swapLists (⟨some 0, 2⟩ : SingleLinkedList) ⟨some 0, 2⟩).1 =
      GetSize ⟨some 0, 2⟩ ∧
    toList [some ⟨1, some 1⟩, some (⟨2, none⟩ : Node Nat)]
      (swapLists ⟨some 0, 2⟩ ⟨some 0, 2⟩).1 =
      toList [some ⟨1, some 1⟩, some (⟨2, none⟩ : Node Nat)] ⟨some 0, 2⟩ :=
  claim_C10
    ⟨[0, 1], chain.cons (n := ⟨1, some 1⟩) rfl
      (chain.cons (n := ⟨2, none⟩) rfl chain.nil), rfl⟩
